import Mathlib

/-!
Verification development for the marvelous-yeti command/process runner.

The definitions below are a shallow embedding of the repository's two core
subsystems:

* the argument-exposition engine (`src/my/commands/arguments.py`):
  sentinel values (`REQUIRED_ARGUMENT`, `HIDDEN_ARGUMENT`, `OPTIONAL_ARGUMENT`),
  the per-field metadata envelope built by `args(...)`, the per-field argument
  computation `ExposeArguments._arguments`, and reconciliation
  `ExposeArguments.with_arguments`;
* the process-composition combinator `ProcessRunner.__or__`
  (`src/my/commands/common.py`);
* the registration trees `AttrTree2` (flat, path-keyed) and `AttrTree`
  (node-based with dynamic attribute exposure) from `src/my/utils/tree.py`
  (`NamedTree` in `src/my/plugins/load.py` is the same code).

Python values are modelled by a small universe: primitive values, sentinel
instances (a kind plus the parser overrides captured by a parameterized
invocation of the sentinel), and nested declaration instances.  Python dicts
are modelled as insertion-ordered association lists with first-key-wins
lookup and replace-or-append update, matching dict semantics for the
unique-key dicts the code builds.  Sentinels compare structurally (in the
source they are compared with `==`, which for these classes is identity; the
structural model identifies separately-constructed but identical sentinel
invocations, which the code never distinguishes).  Dataclass `__eq__` is
field-wise, so structural equality is faithful for declarations.
-/

/-- Python dict lookup on an association list: first binding wins. -/
def dictGet {α : Type} (m : List (String × α)) (k : String) : Option α :=
  match m with
  | [] => none
  | (k', v) :: rest => if k' = k then some v else dictGet rest k

/-- `k in d` on a Python dict. -/
def dictHas {α : Type} (m : List (String × α)) (k : String) : Bool :=
  (dictGet m k).isSome

/-- Python dict assignment `d[k] = v`: replace in place if the key is
present, otherwise append. -/
def dictSet {α : Type} (m : List (String × α)) (k : String) (v : α) :
    List (String × α) :=
  match m with
  | [] => [(k, v)]
  | p :: rest => if p.1 = k then (k, v) :: rest else p :: dictSet rest k v

/-- Python `del d[k]`. -/
def dictDel {α : Type} (m : List (String × α)) (k : String) : List (String × α) :=
  match m with
  | [] => []
  | p :: rest => if p.1 = k then dictDel rest k else p :: dictDel rest k

/-- Python `d.update(u)`: fold `d[k] = v` over the entries of `u`. -/
def dictUpdate {α : Type} (m upd : List (String × α)) : List (String × α) :=
  upd.foldl (fun acc kv => dictSet acc kv.1 kv.2) m

/-- The three sentinel classes `_REQUIRED_ARGUMENT`, `_HIDDEN_ARGUMENT`,
`_OPTIONAL_ARGUMENT`. -/
inductive SpecialKind where
  | required
  | hidden
  | optional
deriving DecidableEq, Repr

/-- Primitive Python values appearing as field values, defaults and parser
options: strings, integers, booleans, `None`, and the `Ellipsis` hole. -/
inductive Prim where
  | pstr (s : String)
  | pint (n : Int)
  | pbool (b : Bool)
  | pnone
  | pellipsis
deriving DecidableEq, Repr

/-- The `argparse` metadata envelope attached to a dataclass field by
`args(...)`: positional names, keyword options, and the `exclude` flag. -/
structure ArgMeta where
  margs : List String
  mkwargs : List (String × Prim)
  exclude : Bool
deriving DecidableEq, Repr

mutual
/-- A Python value sitting in a declaration field: a primitive, a sentinel
instance (its kind plus the `argparse_args`/`argparse_kwargs` captured by a
parameterized invocation; both empty for the bare module-level sentinels),
or a nested declaration instance. -/
inductive FieldVal where
  | prim (p : Prim)
  | special (k : SpecialKind) (sargs : List String) (skwargs : List (String × Prim))
  | nested (d : Fields)

/-- The ordered field list of a declaration instance (`fields(self)`). -/
inductive Fields where
  | fnil
  | fcons (f : FieldD) (rest : Fields)

/-- One dataclass field of a declaration instance: its name, whether its
declared type is an `ExposeArguments` subclass, its static default
(`hasDefault = false` models `MISSING` with no default factory; a default
factory is modelled by the value it produces), its `argparse` metadata,
its `init` flag, and its current value on the instance. -/
inductive FieldD where
  | mk (name : String) (isExpose : Bool) (hasDefault : Bool) (dflt : FieldVal)
       (meta_ : Option ArgMeta) (isInit : Bool) (value : FieldVal)
end

namespace FieldD

def name : FieldD → String
  | .mk n _ _ _ _ _ _ => n

def isExpose : FieldD → Bool
  | .mk _ e _ _ _ _ _ => e

def hasDefault : FieldD → Bool
  | .mk _ _ h _ _ _ _ => h

def dflt : FieldD → FieldVal
  | .mk _ _ _ d _ _ _ => d

def meta_ : FieldD → Option ArgMeta
  | .mk _ _ _ _ m _ _ => m

def isInit : FieldD → Bool
  | .mk _ _ _ _ _ i _ => i

def value : FieldD → FieldVal
  | .mk _ _ _ _ _ _ v => v

/-- Replace the current value of a field (what `dataclasses.replace`
does to one field of the new instance). -/
def setValue : FieldD → FieldVal → FieldD
  | .mk n e h d m i _, v => .mk n e h d m i v

end FieldD

mutual
/-- Structural equality on values; models Python `==` (dataclass `__eq__`
is field-wise, sentinels compare by identity which the structural model
refines as explained in the header). -/
def beqFV : FieldVal → FieldVal → Bool
  | .prim p, .prim q => p = q
  | .special k a kw, .special k' a' kw' => k = k' && a = a' && kw = kw'
  | .nested d, .nested d' => beqFs d d'
  | _, _ => false

def beqFs : Fields → Fields → Bool
  | .fnil, .fnil => true
  | .fcons f r, .fcons f' r' => beqFD f f' && beqFs r r'
  | _, _ => false

def beqFD : FieldD → FieldD → Bool
  | .mk n e h d m i v, .mk n' e' h' d' m' i' v' =>
      n = n' && e = e' && h = h' && beqFV d d' && m = m' && i = i' && beqFV v v'
end

/-- `is_special_argument(obj, special_args)` for a list of sentinel kinds:
an object is special if it is an instance of one of the sentinel classes
passed, or of the type of one of their aliases.  Only `_REQUIRED_ARGUMENT`
declares an alias, `Ellipsis`, so the `Ellipsis` value counts as special
exactly when the required sentinel is among the kinds asked about. -/
def isSpecialArg (v : FieldVal) (kinds : List SpecialKind) : Bool :=
  match v with
  | .special k _ _ => kinds.contains k
  | .prim .pellipsis => kinds.contains .required
  | _ => false

/-- All three sentinel kinds: the default `special_args` of
`is_special_argument`. -/
def allSpecialKinds : List SpecialKind := [.required, .hidden, .optional]

/-- `argslug`: replace underscores by hyphens in a CLI name. -/
def argslug (s : String) : String :=
  String.mk (s.data.map fun c => if c = '_' then '-' else c)

/-- Whether a CLI name is written in `--flag` form (starts with two
hyphens). -/
def flagLike (s : String) : Bool :=
  match s.data with
  | '-' :: '-' :: _ => true
  | _ => false

/-- The computed argument specification for one field: the entry stored in
the dict returned by `_arguments` (`{"args": ..., "exclude": ...,
"kwargs": ...}`). -/
structure ArgSpec where
  args : List String
  exclude : Bool
  kwargs : List (String × FieldVal)

/-- The effective default of a field in `_arguments` / `with_arguments`:
the static default, or the default factory's result, or Python `None`. -/
def defaultValOf (f : FieldD) : FieldVal :=
  if f.hasDefault then f.dflt else .prim .pnone

/-- Seed specification for a field: its pre-attached `argparse` metadata if
any, otherwise the synthesized
`{"args": [], "exclude": False, "kwargs": {"default": field_val}}`. -/
def seedSpec (f : FieldD) : ArgSpec :=
  match f.meta_ with
  | some m =>
      { args := m.margs, exclude := m.exclude,
        kwargs := m.mkwargs.map (fun kv => (kv.1, FieldVal.prim kv.2)) }
  | none => { args := [], exclude := false, kwargs := [("default", f.value)] }

/-- Step 5 of the engine, first half: the raw CLI name — the first
explicit metadata name if any, else the field name. -/
def seedArgName (f : FieldD) : String :=
  match (seedSpec f).args with
  | [] => f.name
  | a :: _ => a

/-- Whether the field is rendered optional: its value equals the computed
default, or it is the optional sentinel. -/
def fieldIsOpt (f : FieldD) : Bool :=
  beqFV f.value (defaultValOf f) || isSpecialArg f.value [.optional]

/-- Step 5, second half: mangle the name into `--flag` form when the field
is optional. -/
def argNameOf (f : FieldD) : String :=
  if fieldIsOpt f then argslug ("--" ++ seedArgName f) else seedArgName f

/-- Step 6: defaulting — force the default for the optional sentinel,
delete it for the required sentinel. -/
def kwargsStage1 (f : FieldD) : List (String × FieldVal) :=
  if isSpecialArg f.value [.optional] then
    dictSet (seedSpec f).kwargs "default" (defaultValOf f)
  else if isSpecialArg f.value [.required] && dictHas (seedSpec f).kwargs "default" then
    dictDel (seedSpec f).kwargs "default"
  else (seedSpec f).kwargs

/-- Step 7, positional part: a parameterized sentinel's `argparse_args`
replace the computed name when non-empty. -/
def argsStage2 (f : FieldD) : List String :=
  match f.value with
  | .special _ sargs _ => if sargs.isEmpty then [argNameOf f] else sargs
  | _ => [argNameOf f]

/-- Step 7, keyword part: a parameterized sentinel's `argparse_kwargs` are
merged in, sentinel keys winning. -/
def kwargsStage2 (f : FieldD) : List (String × FieldVal) :=
  match f.value with
  | .special _ _ skwargs =>
      if skwargs.isEmpty then kwargsStage1 f
      else dictUpdate (kwargsStage1 f)
        (skwargs.map (fun kv => (kv.1, FieldVal.prim kv.2)))
  | _ => kwargsStage1 f

/-- The specification computed for a field that passed the skip tests of
the `_arguments` loop: naming, optional-flag mangling, defaulting,
sentinel-level overrides, and step 8's `dest`/metavar reconciliation. -/
def computeFieldSpecCore (f : FieldD) : ArgSpec :=
  if argslug ((argsStage2 f).headD "") != argslug (argNameOf f) then
    if fieldIsOpt f then
      ⟨argsStage2 f, (seedSpec f).exclude,
       dictSet (kwargsStage2 f) "dest" (.prim (.pstr f.name))⟩
    else
      ⟨f.name :: (argsStage2 f).tail, (seedSpec f).exclude,
       dictSet (kwargsStage2 f) "metavar" (.prim (.pstr ((argsStage2 f).headD "")))⟩
  else ⟨argsStage2 f, (seedSpec f).exclude, kwargsStage2 f⟩

/-- The body of the per-field loop of `ExposeArguments._arguments`:
`none` when the field is skipped, otherwise the computed specification.
`includeF` is the `include_field` predicate derived from `add_all_fields`. -/
def computeFieldSpec (includeF : FieldD → Bool) (f : FieldD) : Option ArgSpec :=
  if !f.isInit then none
  else if !(isSpecialArg f.value [.required, .optional]) then none
  else if !(includeF f) then none
  else some (computeFieldSpecCore f)

/-- `ExposeArguments._arguments`: the ordered field-name-keyed dict of
computed argument specifications. -/
def argumentsOf (includeF : FieldD → Bool) : Fields → List (String × ArgSpec)
  | .fnil => []
  | .fcons f rest =>
      (match computeFieldSpec includeF f with
       | some s => [(f.name, s)]
       | none => []) ++ argumentsOf includeF rest

/-- `_SPECIAL_ARGUMENT.__call__`: a parameterized invocation of a sentinel.
It refuses an explicit `dest` keyword and otherwise returns a fresh sentinel
instance carrying the given parser options. -/
def specialCall (k : SpecialKind) (sargs : List String)
    (skwargs : List (String × Prim)) : Except String FieldVal :=
  if dictHas skwargs "dest" then
    .error "Setting 'dest' is not supported (it breaks the parsing afterwards)"
  else
    .ok (.special k sargs skwargs)

/-- The `args(...)` field helper: builds the metadata envelope
`{"args": list(args), "kwargs": kwargs, "exclude": kwargs.get("exclude", False)}`.
It performs no validation. -/
def argsMeta (margs : List String) (kwargs : List (String × Prim)) : ArgMeta :=
  { margs := margs, mkwargs := kwargs,
    exclude := match dictGet kwargs "exclude" with
      | some (.pbool b) => b
      | some .pnone => false
      | some _ => true
      | none => false }

/-- The dataclass field built by `args(...)`: metadata plus the `default`
taken from the keyword options when present. -/
def mkArgsField (name : String) (margs : List String)
    (kwargs : List (String × Prim)) (value : FieldVal) : FieldD :=
  let hasD := dictHas kwargs "default"
  .mk name false hasD
    (match dictGet kwargs "default" with
     | some p => .prim p
     | none => .prim .pnone)
    (some (argsMeta margs kwargs)) true value

/-! ### Association-list (Python dict) lemmas -/

theorem dictGet_set_self {α : Type} (m : List (String × α)) (k : String) (v : α) :
    dictGet (dictSet m k v) k = some v := by
  induction m with
  | nil => simp [dictSet, dictGet]
  | cons p rest ih =>
      obtain ⟨k1, v1⟩ := p
      by_cases h : k1 = k
      · simp [dictSet, dictGet, h]
      · simp [dictSet, dictGet, h, ih]

theorem dictGet_set_ne {α : Type} (m : List (String × α)) (k k' : String) (v : α)
    (h : k' ≠ k) :
    dictGet (dictSet m k v) k' = dictGet m k' := by
  have hkk : ¬ (k = k') := fun e => h e.symm
  induction m with
  | nil => simp [dictSet, dictGet, hkk]
  | cons p rest ih =>
      obtain ⟨k1, v1⟩ := p
      by_cases h1 : k1 = k
      · subst h1
        simp [dictSet, dictGet, hkk]
      · simp [dictSet, dictGet, h1, ih]

theorem dictHas_set_self {α : Type} (m : List (String × α)) (k : String) (v : α) :
    dictHas (dictSet m k v) k = true := by
  unfold dictHas
  rw [dictGet_set_self]
  rfl

theorem dictGet_del {α : Type} (m : List (String × α)) (k k' : String) :
    dictGet (dictDel m k) k' = if k' = k then none else dictGet m k' := by
  induction m with
  | nil => simp [dictDel, dictGet]
  | cons p rest ih =>
      obtain ⟨k1, v1⟩ := p
      by_cases h1 : k1 = k
      · subst h1
        rw [show dictDel ((k1, v1) :: rest) k1 = dictDel rest k1 by simp [dictDel]]
        rw [ih]
        by_cases hk : k' = k1
        · simp [hk]
        · have h2 : ¬ (k1 = k') := fun e => hk e.symm
          simp [hk, dictGet, h2]
      · by_cases hk : k1 = k'
        · subst hk
          simp [dictDel, dictGet, h1]
        · simp [dictDel, dictGet, h1, hk, ih]

theorem dictHas_del_self {α : Type} (m : List (String × α)) (k : String) :
    dictHas (dictDel m k) k = false := by
  unfold dictHas
  rw [dictGet_del]
  simp

theorem dictGet_mem {α : Type} (m : List (String × α)) (k : String) (v : α)
    (h : dictGet m k = some v) : (k, v) ∈ m := by
  induction m with
  | nil => simp [dictGet] at h
  | cons p rest ih =>
      obtain ⟨k1, v1⟩ := p
      by_cases h1 : k1 = k
      · subst h1
        simp [dictGet] at h
        subst h
        exact List.mem_cons_self _ _
      · simp only [dictGet, if_neg h1] at h
        exact List.mem_cons_of_mem _ (ih h)

theorem dictHas_iff_mem_keys {α : Type} (m : List (String × α)) (k : String) :
    dictHas m k = true ↔ k ∈ m.map Prod.fst := by
  induction m with
  | nil => simp [dictHas, dictGet]
  | cons p rest ih =>
      obtain ⟨k1, v1⟩ := p
      by_cases h1 : k1 = k
      · subst h1
        simp [dictHas, dictGet]
      · have : ¬ (k = k1) := fun e => h1 e.symm
        simp only [dictHas, dictGet, if_neg h1, List.map_cons, List.mem_cons]
        rw [← dictHas]
        simp [this, ih]

theorem dictGet_update_not_mem {α : Type} (u : List (String × α)) :
    ∀ (m : List (String × α)) (k : String), dictHas u k = false →
      dictGet (dictUpdate m u) k = dictGet m k := by
  induction u with
  | nil => intro m k _; simp [dictUpdate]
  | cons p rest ih =>
      intro m k h
      obtain ⟨k1, v1⟩ := p
      have hp : ¬ (k1 = k) := by
        intro e
        subst e
        simp [dictHas, dictGet] at h
      have hr : dictHas rest k = false := by
        simpa [dictHas, dictGet, hp] using h
      show dictGet (dictUpdate (dictSet m k1 v1) rest) k = dictGet m k
      rw [ih _ _ hr, dictGet_set_ne _ _ _ _ (fun e => hp e.symm)]

theorem dictGet_update_mem_nodup {α : Type} (u : List (String × α)) :
    ∀ (m : List (String × α)) (k : String) (v : α),
      (u.map Prod.fst).Nodup → (k, v) ∈ u →
      dictGet (dictUpdate m u) k = some v := by
  induction u with
  | nil => intro m k v _ hm; cases hm
  | cons p rest ih =>
      intro m k v hnd hm
      obtain ⟨k1, v1⟩ := p
      simp only [List.map_cons, List.nodup_cons] at hnd
      rcases List.mem_cons.mp hm with he | ht
      · cases he
        have hr : dictHas rest k = false := by
          by_cases hc : dictHas rest k = true
          · exact absurd ((dictHas_iff_mem_keys rest k).mp hc) hnd.1
          · simpa using hc
        show dictGet (dictUpdate (dictSet m k v) rest) k = some v
        rw [dictGet_update_not_mem _ _ _ hr, dictGet_set_self]
      · exact ih _ _ _ hnd.2 ht

/-! ### Structural equality is equality -/

mutual
theorem beqFV_iff : ∀ (a b : FieldVal), beqFV a b = true ↔ a = b
  | .prim _, .prim _ => by simp [beqFV]
  | .prim _, .special _ _ _ => by simp [beqFV]
  | .prim _, .nested _ => by simp [beqFV]
  | .special _ _ _, .prim _ => by simp [beqFV]
  | .special _ _ _, .special _ _ _ => by simp [beqFV, and_assoc]
  | .special _ _ _, .nested _ => by simp [beqFV]
  | .nested _, .prim _ => by simp [beqFV]
  | .nested _, .special _ _ _ => by simp [beqFV]
  | .nested d, .nested d' => by simp [beqFV, beqFs_iff d d']

theorem beqFs_iff : ∀ (a b : Fields), beqFs a b = true ↔ a = b
  | .fnil, .fnil => by simp [beqFs]
  | .fnil, .fcons _ _ => by simp [beqFs]
  | .fcons _ _, .fnil => by simp [beqFs]
  | .fcons f r, .fcons f' r' => by
      simp [beqFs, beqFD_iff f f', beqFs_iff r r']

theorem beqFD_iff : ∀ (a b : FieldD), beqFD a b = true ↔ a = b
  | .mk _ _ _ d _ _ v, .mk _ _ _ d' _ _ v' => by
      simp [beqFD, beqFV_iff d d', beqFV_iff v v', and_assoc]
end

theorem beqFV_refl (a : FieldVal) : beqFV a a = true := (beqFV_iff a a).mpr rfl

theorem beqFV_eq_false_of_ne {a b : FieldVal} (h : a ≠ b) : beqFV a b = false := by
  by_cases hc : beqFV a b = true
  · exact absurd ((beqFV_iff a b).mp hc) h
  · simpa using hc

/-! ### Per-field computations of the exposition engine -/

theorem dictDel_of_not_has {α : Type} (m : List (String × α)) (k : String)
    (h : dictHas m k = false) : dictDel m k = m := by
  induction m with
  | nil => rfl
  | cons p rest ih =>
      obtain ⟨k1, v1⟩ := p
      by_cases h1 : k1 = k
      · subst h1
        simp [dictHas, dictGet] at h
      · have hr : dictHas rest k = false := by simpa [dictHas, dictGet, h1] using h
        simp [dictDel, h1, ih hr]

theorem seedSpec_args_nil (f : FieldD)
    (hmeta : (f.meta_.map ArgMeta.margs).getD [] = []) : (seedSpec f).args = [] := by
  cases hm : f.meta_ with
  | none => simp [seedSpec, hm]
  | some m =>
      simp only [seedSpec, hm]
      rw [hm] at hmeta
      simpa using hmeta

theorem computeFieldSpec_required (inc : FieldD → Bool) (f : FieldD)
    (hinit : f.isInit = true) (hinc : inc f = true)
    (hmeta : (f.meta_.map ArgMeta.margs).getD [] = [])
    (hv : f.value = .special .required [] [])
    (hbeq : beqFV f.value (defaultValOf f) = false) :
    computeFieldSpec inc f =
      some ⟨[f.name], (seedSpec f).exclude, dictDel (seedSpec f).kwargs "default"⟩ := by
  have h1 : isSpecialArg (FieldVal.special .required [] []) [.required, .optional] = true := rfl
  have h2 : isSpecialArg (FieldVal.special .required [] []) [.optional] = false := rfl
  have h3 : isSpecialArg (FieldVal.special .required [] []) [.required] = true := rfl
  rw [hv] at hbeq
  have hargs := seedSpec_args_nil f hmeta
  by_cases hd : dictHas (seedSpec f).kwargs "default" = true
  · simp [computeFieldSpec, computeFieldSpecCore, seedArgName, fieldIsOpt, argNameOf, kwargsStage1, argsStage2, kwargsStage2, hinit, hinc, hv, hargs, hbeq, hd, h1, h2, h3]
  · have hd' : dictHas (seedSpec f).kwargs "default" = false := by simpa using hd
    simp [computeFieldSpec, computeFieldSpecCore, seedArgName, fieldIsOpt, argNameOf, kwargsStage1, argsStage2, kwargsStage2, hinit, hinc, hv, hargs, hbeq, hd', h1, h2, h3,
      dictDel_of_not_has _ _ hd']

theorem computeFieldSpec_optional (inc : FieldD → Bool) (f : FieldD)
    (hinit : f.isInit = true) (hinc : inc f = true)
    (hmeta : (f.meta_.map ArgMeta.margs).getD [] = [])
    (hv : f.value = .special .optional [] []) :
    computeFieldSpec inc f =
      some ⟨[argslug ("--" ++ f.name)], (seedSpec f).exclude,
            dictSet (seedSpec f).kwargs "default" (defaultValOf f)⟩ := by
  have h1 : isSpecialArg (FieldVal.special .optional [] []) [.required, .optional] = true := rfl
  have h2 : isSpecialArg (FieldVal.special .optional [] []) [.optional] = true := rfl
  have h3 : isSpecialArg (FieldVal.special .optional [] []) [.required] = false := rfl
  have hargs := seedSpec_args_nil f hmeta
  simp [computeFieldSpec, computeFieldSpecCore, seedArgName, fieldIsOpt, argNameOf, kwargsStage1, argsStage2, kwargsStage2, hinit, hinc, hv, hargs, h1, h2, h3]

theorem computeFieldSpec_hidden (inc : FieldD → Bool) (f : FieldD)
    (sa : List String) (skw : List (String × Prim))
    (hv : f.value = .special .hidden sa skw) :
    computeFieldSpec inc f = none := by
  unfold computeFieldSpec
  rw [hv]
  cases f.isInit <;> simp [isSpecialArg]

/-- Concatenation of field lists (used to place one field inside an
arbitrary declaration). -/
def appendF : Fields → Fields → Fields
  | .fnil, d => d
  | .fcons f r, d => .fcons f (appendF r d)

theorem argumentsOf_append (inc : FieldD → Bool) :
    ∀ (a b : Fields),
      argumentsOf inc (appendF a b) = argumentsOf inc a ++ argumentsOf inc b
  | .fnil, b => by simp [appendF, argumentsOf]
  | .fcons f r, b => by simp [appendF, argumentsOf, argumentsOf_append inc r b]

/-- C1: in `ExposeArguments._arguments`, for any field of a declaration
(any position, any include predicate admitting it, no explicit CLI name in
its metadata): a field currently holding the bare `REQUIRED_ARGUMENT`
sentinel produces a positional specification (its single name is the field
name, not a `--` flag) whose kwargs carry no `default` entry; a field
holding the bare `OPTIONAL_ARGUMENT` sentinel produces an optional flag
named `--field-name` (underscores mangled to hyphens) whose kwargs
`default` is the field's static default; a field holding the hidden
sentinel produces no specification at all. -/
theorem c1_sentinel_exposition (inc : FieldD → Bool) (d1 d2 : Fields) (f : FieldD)
    (hinit : f.isInit = true) (hinc : inc f = true)
    (hmeta : (f.meta_.map ArgMeta.margs).getD [] = [])
    (hdash : flagLike f.name = false) :
    (f.value = .special .required [] [] →
      defaultValOf f ≠ .special .required [] [] →
      ∃ s, computeFieldSpec inc f = some s ∧
        argumentsOf inc (appendF d1 (.fcons f d2)) =
          argumentsOf inc d1 ++ (f.name, s) :: argumentsOf inc d2 ∧
        s.args = [f.name] ∧ flagLike (s.args.headD "") = false ∧
        dictHas s.kwargs "default" = false) ∧
    (f.value = .special .optional [] [] →
      ∃ s, computeFieldSpec inc f = some s ∧
        argumentsOf inc (appendF d1 (.fcons f d2)) =
          argumentsOf inc d1 ++ (f.name, s) :: argumentsOf inc d2 ∧
        s.args = [argslug ("--" ++ f.name)] ∧
        dictGet s.kwargs "default" = some (defaultValOf f)) ∧
    (∀ sa skw, f.value = .special .hidden sa skw →
      computeFieldSpec inc f = none ∧
      argumentsOf inc (appendF d1 (.fcons f d2)) =
        argumentsOf inc d1 ++ argumentsOf inc d2) := by
  refine ⟨?_, ?_, ?_⟩
  · intro hv hdv
    have hbeq : beqFV f.value (defaultValOf f) = false := by
      rw [hv]
      exact beqFV_eq_false_of_ne (fun e => hdv e.symm)
    have hc := computeFieldSpec_required inc f hinit hinc hmeta hv hbeq
    refine ⟨_, hc, ?_, rfl, ?_, ?_⟩
    · rw [argumentsOf_append]
      simp [argumentsOf, hc]
    · simpa using hdash
    · exact dictHas_del_self _ _
  · intro hv
    have hc := computeFieldSpec_optional inc f hinit hinc hmeta hv
    refine ⟨_, hc, ?_, rfl, ?_⟩
    · rw [argumentsOf_append]
      simp [argumentsOf, hc]
    · exact dictGet_set_self _ _ _
  · intro sa skw hv
    have hc := computeFieldSpec_hidden inc f sa skw hv
    refine ⟨hc, ?_⟩
    rw [argumentsOf_append]
    simp [argumentsOf, hc]

/-- The spec's example declaration: a field `default_arg` with static
default `"ABC"`, currently set to the bare `OPTIONAL_ARGUMENT` sentinel. -/
def c1exField : FieldD :=
  .mk "default_arg" false true (.prim (.pstr "ABC")) none true (.special .optional [] [])

theorem c1_sentinel_exposition_witness :
    ∃ s, computeFieldSpec (fun _ => true) c1exField = some s ∧
      s.args = ["--default-arg"] ∧
      dictGet s.kwargs "default" = some (.prim (.pstr "ABC")) := by
  obtain ⟨s, hs, _hl, hargs, hdef⟩ :=
    (c1_sentinel_exposition (fun _ => true) .fnil .fnil c1exField rfl rfl rfl
      (by decide)).2.1 rfl
  refine ⟨s, hs, ?_, ?_⟩
  · rw [hargs]; rfl
  · rw [hdef]; rfl

/-! ### Reconciliation (`ExposeArguments.with_arguments`) -/

/-- The field list of a declaration as a plain Lean list. -/
def fieldsList : Fields → List FieldD
  | .fnil => []
  | .fcons f r => f :: fieldsList r

/-- The field names of a declaration, in order. -/
def namesOfF (d : Fields) : List String := (fieldsList d).map FieldD.name

/-- Find a declaration field by name. -/
def findField : Fields → String → Option FieldD
  | .fnil, _ => none
  | .fcons f r, n => if f.name = n then some f else findField r n

/-- `hasattr(self, name)` restricted to dataclass fields (the only instance
attributes a declaration carries). -/
def hasFieldNamed : Fields → String → Bool
  | .fnil, _ => false
  | .fcons f r, n => f.name = n || hasFieldNamed r n

/-- The `useful_kwargs` filter of `with_arguments`: keep a provided value
when the declaration has an attribute of that name and the value is not the
required sentinel (or its `Ellipsis` alias). -/
def usefulKwargs (d : Fields) (kwargs : List (String × FieldVal)) :
    List (String × FieldVal) :=
  kwargs.filter (fun kv => hasFieldNamed d kv.1 && !(isSpecialArg kv.2 [.required]))

/-- `dataclasses.replace(self, **updates)`: each field whose name is a key
of `updates` takes the new value, all other fields keep their current
value. -/
def applyUpdates : Fields → List (String × FieldVal) → Fields
  | .fnil, _ => .fnil
  | .fcons f r, upd =>
      .fcons (match dictGet upd f.name with
              | some v => f.setValue v
              | none => f)
        (applyUpdates r upd)

mutual
/-- The `new_fields` dict built by the first loop of `with_arguments`,
entry by entry: for a field of declared `ExposeArguments` type the
recursively reconciled nested declaration (an `AttributeError` if the value
is not a declaration, as calling `.with_arguments` on it would raise); for
a hidden field its static default (a `ValueError` if it has none); nothing
otherwise. -/
def entryFor (kwargs : List (String × FieldVal)) :
    FieldD → Except String (List (String × FieldVal))
  | .mk n isExp hasD dflt _ _ v =>
      if isExp then
        match v with
        | .nested sub =>
            match newFieldsOf kwargs sub with
            | .error e => .error e
            | .ok nf =>
                .ok [(n, .nested (applyUpdates sub
                  (dictUpdate (usefulKwargs sub kwargs) nf)))]
        | _ => .error ("AttributeError: value of field " ++ n ++
            " has no attribute with_arguments")
      else if isSpecialArg v [.hidden] then
        if hasD then .ok [(n, dflt)]
        else .error ("Field " ++ n ++
          " was hidden but does not have a default value or factory.")
      else .ok []

/-- The `new_fields` dict over all fields, in field order. -/
def newFieldsOf (kwargs : List (String × FieldVal)) :
    Fields → Except String (List (String × FieldVal))
  | .fnil => .ok []
  | .fcons f rest =>
      match entryFor kwargs f with
      | .error e => .error e
      | .ok ent =>
          match newFieldsOf kwargs rest with
          | .error e => .error e
          | .ok tail => .ok (ent ++ tail)
end

/-- `ExposeArguments.with_arguments(self, **kwargs)`: build `new_fields`
(recursively reconciled nested declarations and resolved hidden fields),
filter the provided values to `useful_kwargs`, let `new_fields` win on key
collisions, and produce the replaced declaration. -/
def withArgumentsF (d : Fields) (kwargs : List (String × FieldVal)) :
    Except String Fields :=
  match newFieldsOf kwargs d with
  | .error e => .error e
  | .ok nf => .ok (applyUpdates d (dictUpdate (usefulKwargs d kwargs) nf))

/-! ### The Ellipsis alias -/

theorem ne_of_beqFV_false {a b : FieldVal} (h : beqFV a b = false) : a ≠ b :=
  fun e => by rw [(beqFV_iff a b).mpr e] at h; cases h

theorem setValue_name (f : FieldD) (v : FieldVal) : (f.setValue v).name = f.name := by
  cases f; rfl

theorem setValue_isInit (f : FieldD) (v : FieldVal) : (f.setValue v).isInit = f.isInit := by
  cases f; rfl

theorem setValue_meta (f : FieldD) (v : FieldVal) : (f.setValue v).meta_ = f.meta_ := by
  cases f; rfl

theorem setValue_value (f : FieldD) (v : FieldVal) : (f.setValue v).value = v := by
  cases f; rfl

theorem setValue_defaultValOf (f : FieldD) (v : FieldVal) :
    defaultValOf (f.setValue v) = defaultValOf f := by
  cases f; rfl

theorem seedSpec_exclude_setValue (f : FieldD) (v : FieldVal) :
    (seedSpec (f.setValue v)).exclude = (seedSpec f).exclude := by
  cases f with
  | mk n e h d m i w => cases m <;> rfl

theorem dictDel_seed_default_setValue (f : FieldD) (v : FieldVal) :
    dictDel (seedSpec (f.setValue v)).kwargs "default" =
      dictDel (seedSpec f).kwargs "default" := by
  cases f with
  | mk n e h d m i w =>
      cases m with
      | none => simp [seedSpec, FieldD.setValue, FieldD.meta_, dictDel]
      | some mm => rfl

/-- The required-branch computation for any value classified as required
(the bare sentinel or its `Ellipsis` alias) carrying no parser overrides. -/
theorem computeFieldSpec_required_like (inc : FieldD → Bool) (f : FieldD)
    (hinit : f.isInit = true) (hinc : inc f = true)
    (hmeta : (f.meta_.map ArgMeta.margs).getD [] = [])
    (hso : isSpecialArg f.value [.required, .optional] = true)
    (hopt : isSpecialArg f.value [.optional] = false)
    (hnoargs : ∀ k sa skw, f.value = .special k sa skw → sa = [] ∧ skw = [])
    (hbeq : beqFV f.value (defaultValOf f) = false) :
    computeFieldSpec inc f =
      some ⟨[f.name], (seedSpec f).exclude, dictDel (seedSpec f).kwargs "default"⟩ := by
  have hargs := seedSpec_args_nil f hmeta
  have hreq : isSpecialArg f.value [.required] = true := by
    cases hfv : f.value with
    | prim p =>
        rw [hfv] at hso hopt
        cases p <;> simp_all [isSpecialArg]
    | special k sa skw =>
        rw [hfv] at hso hopt
        cases k <;> simp_all [isSpecialArg, List.contains]
    | nested dd => rw [hfv] at hso; simp [isSpecialArg] at hso
  cases hfv : f.value with
  | prim p =>
      rw [hfv] at hso hopt hreq hbeq
      by_cases hd : dictHas (seedSpec f).kwargs "default" = true
      · simp [computeFieldSpec, computeFieldSpecCore, seedArgName, fieldIsOpt, argNameOf, kwargsStage1, argsStage2, kwargsStage2, hinit, hinc, hfv, hargs, hbeq, hd, hso, hopt, hreq]
      · have hd' : dictHas (seedSpec f).kwargs "default" = false := by simpa using hd
        simp [computeFieldSpec, computeFieldSpecCore, seedArgName, fieldIsOpt, argNameOf, kwargsStage1, argsStage2, kwargsStage2, hinit, hinc, hfv, hargs, hbeq, hd', hso, hopt, hreq,
          dictDel_of_not_has _ _ hd']
  | special k sa skw =>
      obtain ⟨rfl, rfl⟩ := hnoargs k sa skw hfv
      rw [hfv] at hso hopt hreq hbeq
      by_cases hd : dictHas (seedSpec f).kwargs "default" = true
      · simp [computeFieldSpec, computeFieldSpecCore, seedArgName, fieldIsOpt, argNameOf, kwargsStage1, argsStage2, kwargsStage2, hinit, hinc, hfv, hargs, hbeq, hd, hso, hopt, hreq]
      · have hd' : dictHas (seedSpec f).kwargs "default" = false := by simpa using hd
        simp [computeFieldSpec, computeFieldSpecCore, seedArgName, fieldIsOpt, argNameOf, kwargsStage1, argsStage2, kwargsStage2, hinit, hinc, hfv, hargs, hbeq, hd', hso, hopt, hreq,
          dictDel_of_not_has _ _ hd']
  | nested dd => rw [hfv] at hso; simp [isSpecialArg] at hso

/-- C9: the `Ellipsis` hole is classified as the `REQUIRED` sentinel:
`is_special_argument(Ellipsis, REQUIRED_ARGUMENT)` holds (also with the
default sentinel list); exposition treats an `Ellipsis`-valued field exactly
as one holding the bare required sentinel (when the include predicate
admits both and the field's default is neither of those two values); and
reconciliation never adopts a provided value that is `Ellipsis` (it is
filtered out of `useful_kwargs`). -/
theorem c9_ellipsis_required_alias (inc : FieldD → Bool) (f : FieldD)
    (hinit : f.isInit = true)
    (hincf : inc f = true)
    (hincg : inc (f.setValue (.special .required [] [])) = true)
    (hmeta : (f.meta_.map ArgMeta.margs).getD [] = [])
    (hv : f.value = .prim .pellipsis)
    (hdv1 : defaultValOf f ≠ .prim .pellipsis)
    (hdv2 : defaultValOf f ≠ .special .required [] []) :
    isSpecialArg (.prim .pellipsis) [.required] = true ∧
    isSpecialArg (.prim .pellipsis) allSpecialKinds = true ∧
    computeFieldSpec inc f =
      computeFieldSpec inc (f.setValue (.special .required [] [])) ∧
    (∀ (d : Fields) (kwargs : List (String × FieldVal)) (kv : String × FieldVal),
      kv ∈ usefulKwargs d kwargs → kv.2 ≠ .prim .pellipsis) := by
  refine ⟨rfl, rfl, ?_, ?_⟩
  · have hlhs := computeFieldSpec_required_like inc f hinit hincf hmeta
      (by rw [hv]; rfl) (by rw [hv]; rfl)
      (fun k sa skw he => by rw [hv] at he; cases he)
      (by rw [hv]; exact beqFV_eq_false_of_ne (fun e => hdv1 e.symm))
    have hg : (f.setValue (.special .required [] [])).value = .special .required [] [] :=
      setValue_value f _
    have hrhs := computeFieldSpec_required inc (f.setValue (.special .required [] []))
      (by rw [setValue_isInit, hinit]) hincg
      (by rw [setValue_meta]; exact hmeta) hg
      (by rw [hg, setValue_defaultValOf]
          exact beqFV_eq_false_of_ne (fun e => hdv2 e.symm))
    rw [hlhs, hrhs, setValue_name, seedSpec_exclude_setValue, dictDel_seed_default_setValue]
  · intro d kwargs kv hmem
    have hcond := List.of_mem_filter hmem
    intro he
    rw [he] at hcond
    simp [isSpecialArg] at hcond

/-- A concrete `Ellipsis`-valued field: `cmd` with default `"dflt"`. -/
def c9exField : FieldD :=
  .mk "cmd" false true (.prim (.pstr "dflt")) none true (.prim .pellipsis)

theorem c9_ellipsis_required_alias_witness :
    isSpecialArg (.prim .pellipsis) [.required] = true ∧
    computeFieldSpec (fun _ => true) c9exField =
      computeFieldSpec (fun _ => true) (c9exField.setValue (.special .required [] [])) := by
  have h := c9_ellipsis_required_alias (fun _ => true) c9exField rfl rfl rfl rfl rfl
    (ne_of_beqFV_false rfl) (ne_of_beqFV_false rfl)
  exact ⟨h.1, h.2.2.1⟩

/-! ### The `dest` prohibition -/

theorem computeFieldSpec_eq_core (inc : FieldD → Bool) (f : FieldD) (s : ArgSpec)
    (h : computeFieldSpec inc f = some s) : s = computeFieldSpecCore f := by
  simp only [computeFieldSpec] at h
  split at h
  · cases h
  · split at h
    · cases h
    · split at h
      · cases h
      · injection h with h
        exact h.symm

theorem dictHas_map_prim (skw : List (String × Prim)) (k : String) :
    dictHas (skw.map (fun kv => (kv.1, FieldVal.prim kv.2))) k = dictHas skw k := by
  induction skw with
  | nil => rfl
  | cons p rest ih =>
      obtain ⟨k1, v1⟩ := p
      by_cases h : k1 = k
      · simp [dictHas, dictGet, h]
      · simp only [List.map_cons]
        simp only [dictHas, dictGet, if_neg h] at *
        exact ih

theorem dictGet_kwargsStage1_dest (f : FieldD) (hm : f.meta_ = none) :
    dictGet (kwargsStage1 f) "dest" = none := by
  have hseedkw : (seedSpec f).kwargs = [("default", f.value)] := by simp [seedSpec, hm]
  unfold kwargsStage1
  rw [hseedkw]
  split
  · rw [dictGet_set_ne _ _ _ _ (by decide)]
    rfl
  · split
    · rw [dictGet_del]
      rfl
    · rfl

theorem dictGet_kwargsStage2_dest (f : FieldD) (k : SpecialKind) (sargs : List String)
    (skwargs : List (String × Prim))
    (hm : f.meta_ = none) (hv : f.value = .special k sargs skwargs)
    (hdest : dictHas skwargs "dest" = false) :
    dictGet (kwargsStage2 f) "dest" = none := by
  simp only [kwargsStage2, hv]
  split
  · exact dictGet_kwargsStage1_dest f hm
  · rw [dictGet_update_not_mem]
    · exact dictGet_kwargsStage1_dest f hm
    · rw [dictHas_map_prim]
      exact hdest

/-- For a field with no pre-attached metadata whose sentinel carries no
`dest` override, the computed specification's `dest`, if set at all, is the
field's own name. -/
theorem c8_core_dest (f : FieldD) (k : SpecialKind) (sargs : List String)
    (skwargs : List (String × Prim))
    (hm : f.meta_ = none) (hv : f.value = .special k sargs skwargs)
    (hdest : dictHas skwargs "dest" = false) :
    dictGet (computeFieldSpecCore f).kwargs "dest" = none ∨
    dictGet (computeFieldSpecCore f).kwargs "dest" = some (.prim (.pstr f.name)) := by
  have h2 := dictGet_kwargsStage2_dest f k sargs skwargs hm hv hdest
  unfold computeFieldSpecCore
  split
  · split
    · exact Or.inr (dictGet_set_self _ _ _)
    · refine Or.inl ?_
      rw [dictGet_set_ne _ _ _ _ (by decide)]
      exact h2
  · exact Or.inl h2

/-- C8 (amended): a parameterized sentinel invocation
(`_SPECIAL_ARGUMENT.__call__`) refuses an explicit `dest` at construction
time, so a sentinel value can only exist without a `dest` override, and for
a metadata-free field the computed specification's parsed-value destination
is the field name (explicit `dest` key absent, or set to the field name).
The `args(...)` per-field metadata helper, by contrast, performs no such
check (see the counterexample). -/
theorem c8_dest_rejection (k : SpecialKind) (sargs : List String)
    (skwargs : List (String × Prim)) :
    (dictHas skwargs "dest" = true → (specialCall k sargs skwargs).isOk = false) ∧
    (∀ v, specialCall k sargs skwargs = .ok v →
      v = .special k sargs skwargs ∧ dictHas skwargs "dest" = false) ∧
    (∀ (f : FieldD) (inc : FieldD → Bool) (s : ArgSpec),
      f.meta_ = none → f.value = .special k sargs skwargs →
      dictHas skwargs "dest" = false →
      computeFieldSpec inc f = some s →
      dictGet s.kwargs "dest" = none ∨
      dictGet s.kwargs "dest" = some (.prim (.pstr f.name))) := by
  refine ⟨?_, ?_, ?_⟩
  · intro h
    unfold specialCall
    rw [if_pos h]
    rfl
  · intro v hv
    unfold specialCall at hv
    split at hv
    · cases hv
    · injection hv with hv
      refine ⟨hv.symm, ?_⟩
      simp_all
  · intro f inc s hm hv hdest hs
    rw [computeFieldSpec_eq_core inc f s hs]
    exact c8_core_dest f k sargs skwargs hm hv hdest

/-- C8 counterexample: `dest` supplied through the `args(...)` per-field
metadata helper raises no error; the engine still computes a specification
for the field, with the foreign `dest` left in its kwargs. -/
theorem c8_dest_via_metadata_counterexample :
    argumentsOf (fun _ => true)
      (.fcons (mkArgsField "x" [] [("dest", .pstr "y")] (.special .required [] [])) .fnil)
      = [("x", ⟨["x"], false, [("dest", .prim (.pstr "y"))]⟩)] := by
  rfl

theorem c8_dest_rejection_witness :
    (specialCall .required [] [("dest", .pstr "y")]).isOk = false ∧
    (dictGet (computeFieldSpecCore c9exField).kwargs "dest" = none ∨
      dictGet (computeFieldSpecCore c9exField).kwargs "dest" =
        some (.prim (.pstr "cmd"))) := by
  constructor
  · exact (c8_dest_rejection .required [] [("dest", .pstr "y")]).1 rfl
  · have h := (c8_dest_rejection .optional [] []).2.2
      (c9exField.setValue (.special .optional [] [])) (fun _ => true)
      (computeFieldSpecCore (c9exField.setValue (.special .optional [] [])))
      rfl (setValue_value _ _) rfl rfl
    simpa [c9exField, FieldD.setValue, FieldD.name] using h

/-! ### Idempotence and hidden-field resolution of reconciliation -/

theorem setValue_self (f : FieldD) : f.setValue f.value = f := by
  cases f; rfl

mutual
/-- A declaration is concrete: no field holds the hidden sentinel, and
every field of declared `ExposeArguments` type holds a nested declaration
that is itself concrete. -/
def concreteD : Fields → Bool
  | .fnil => true
  | .fcons f r => concreteF f && concreteD r

def concreteF : FieldD → Bool
  | .mk _ isExp _ _ _ _ v =>
      if isExp then
        match v with
        | .nested sub => concreteD sub
        | _ => false
      else !(isSpecialArg v [.hidden])
end

mutual
/-- Nested declarations all have duplicate-free field names (a dataclass
guarantee). -/
def namesOkD : Fields → Bool
  | .fnil => true
  | .fcons f r => namesOkF f && namesOkD r

def namesOkF : FieldD → Bool
  | .mk _ _ _ _ _ _ v =>
      match v with
      | .nested sub => decide ((namesOfF sub).Nodup) && namesOkD sub
      | _ => true
end

/-- Well-formed names: duplicate-free at the top level and in every nested
declaration. -/
def wfNames (d : Fields) : Bool := decide ((namesOfF d).Nodup) && namesOkD d

/-- The entries `new_fields` takes on a concrete declaration: each
`ExposeArguments`-typed field mapped to a (recursively reconciled) nested
value. -/
def idEntries : Fields → List (String × FieldVal)
  | .fnil => []
  | .fcons f r => (if f.isExpose then [(f.name, f.value)] else []) ++ idEntries r

theorem idEntries_mem : ∀ (d : Fields) (n : String) (v : FieldVal),
    (n, v) ∈ idEntries d → ∃ g, g ∈ fieldsList d ∧ g.name = n ∧ g.value = v
  | .fnil, n, v, h => by cases h
  | .fcons f r, n, v, h => by
      simp only [idEntries] at h
      rcases List.mem_append.mp h with hl | hr
      · split at hl
        · have he := List.mem_singleton.mp hl
          exact ⟨f, List.mem_cons_self _ _, congrArg Prod.fst he.symm,
            congrArg Prod.snd he.symm⟩
        · cases hl
      · obtain ⟨g, hg, hn, hv⟩ := idEntries_mem r n v hr
        exact ⟨g, List.mem_cons_of_mem _ hg, hn, hv⟩

theorem dictGet_update_mem_or {α : Type} (u : List (String × α)) :
    ∀ (m : List (String × α)) (k : String) (v : α),
      dictGet (dictUpdate m u) k = some v → (k, v) ∈ u ∨ dictGet m k = some v := by
  induction u with
  | nil => intro m k v h; exact Or.inr h
  | cons p rest ih =>
      intro m k v h
      obtain ⟨k1, v1⟩ := p
      rcases ih (dictSet m k1 v1) k v h with hmem | hget
      · exact Or.inl (List.mem_cons_of_mem _ hmem)
      · by_cases hk : k = k1
        · subst hk
          rw [dictGet_set_self] at hget
          injection hget with hget
          exact Or.inl (by rw [hget]; exact List.mem_cons_self _ _)
        · rw [dictGet_set_ne _ _ _ _ (fun e => hk e)] at hget
          exact Or.inr hget

theorem field_unique_by_name : ∀ (d : Fields), (namesOfF d).Nodup →
    ∀ g g', g ∈ fieldsList d → g' ∈ fieldsList d → g.name = g'.name → g = g'
  | .fnil, _, g, g', hg, _, _ => by cases hg
  | .fcons f r, hnd, g, g', hg, hg', hne => by
      simp only [namesOfF, fieldsList, List.map_cons, List.nodup_cons] at hnd
      rcases List.mem_cons.mp hg with he | hm <;>
        rcases List.mem_cons.mp hg' with he' | hm'
      · rw [he, he']
      · exfalso
        subst he
        exact hnd.1 (hne ▸ List.mem_map_of_mem FieldD.name hm')
      · exfalso
        subst he'
        exact hnd.1 (hne ▸ List.mem_map_of_mem FieldD.name hm)
      · exact field_unique_by_name r hnd.2 g g' hm hm' hne

theorem applyUpdates_eq_self : ∀ (d : Fields) (upd : List (String × FieldVal)),
    (∀ g, g ∈ fieldsList d → ∀ v, dictGet upd g.name = some v → v = g.value) →
    applyUpdates d upd = d
  | .fnil, _, _ => rfl
  | .fcons f r, upd, h => by
      simp only [applyUpdates]
      have hr : applyUpdates r upd = r :=
        applyUpdates_eq_self r upd (fun g hg => h g (List.mem_cons_of_mem _ hg))
      rw [hr]
      cases hget : dictGet upd f.name with
      | none => rfl
      | some w =>
          have hwv := h f (List.mem_cons_self _ _) w hget
          rw [hwv]
          show Fields.fcons (f.setValue f.value) r = Fields.fcons f r
          rw [setValue_self]

theorem applyUpdates_idEntries (d : Fields) (hn : (namesOfF d).Nodup) :
    applyUpdates d (dictUpdate [] (idEntries d)) = d := by
  apply applyUpdates_eq_self
  intro g hg v hget
  rcases dictGet_update_mem_or (idEntries d) [] g.name v hget with hmem | hnil
  · obtain ⟨g', hg', hname, hval⟩ := idEntries_mem d g.name v hmem
    have := field_unique_by_name d hn g' g hg' hg hname
    rw [← hval, this]
  · cases hnil

theorem usefulKwargs_nil (d : Fields) : usefulKwargs d [] = [] := rfl

mutual
theorem newFields_id (d : Fields) (hc : concreteD d = true) (hr : namesOkD d = true) :
    newFieldsOf [] d = .ok (idEntries d) :=
  match d, hc, hr with
  | .fnil, _, _ => rfl
  | .fcons f r, hc, hr => by
      simp only [concreteD, Bool.and_eq_true] at hc
      simp only [namesOkD, Bool.and_eq_true] at hr
      have he := entryFor_id f hc.1 hr.1
      have ht := newFields_id r hc.2 hr.2
      simp only [newFieldsOf, he, ht, idEntries]

theorem entryFor_id (f : FieldD) (hc : concreteF f = true) (hr : namesOkF f = true) :
    entryFor [] f = .ok (if f.isExpose then [(f.name, f.value)] else []) :=
  match f, hc, hr with
  | .mk n isExp hasD dflt m i v, hc, hr => by
      cases isExp with
      | true =>
          cases v with
          | nested sub =>
              simp only [concreteF, if_pos rfl] at hc
              simp only [namesOkF, Bool.and_eq_true, decide_eq_true_eq] at hr
              have hn := newFields_id sub hc hr.2
              simp only [entryFor, if_pos rfl, hn, usefulKwargs_nil,
                applyUpdates_idEntries sub hr.1]
              rfl
          | prim p => simp [concreteF] at hc
          | special k sa skw => simp [concreteF] at hc
      | false =>
          simp only [concreteF, Bool.false_eq_true, if_false, Bool.not_eq_true'] at hc
          simp only [entryFor, Bool.false_eq_true, if_false, hc]
          rfl
end

/-- C4: reconciliation is idempotent on already-concrete declarations:
`with_arguments` with no provided values returns a declaration equal to the
input whenever no field (recursively, through nested declaration-bearing
fields) holds the hidden sentinel, every declaration-typed field actually
holds a declaration, and field names are duplicate-free (a dataclass
guarantee). -/
theorem c4_reconciliation_idempotent (d : Fields)
    (hc : concreteD d = true) (hw : wfNames d = true) :
    withArgumentsF d [] = .ok d := by
  simp only [wfNames, Bool.and_eq_true, decide_eq_true_eq] at hw
  simp only [withArgumentsF, newFields_id d hc hw.2, usefulKwargs_nil,
    applyUpdates_idEntries d hw.1]

/-- A concrete two-field declaration with one nested declaration-bearing
field, for evaluating reconciliation. -/
def c4exInner : Fields :=
  .fcons (.mk "b" false true (.prim (.pint 2)) none true (.prim (.pint 3))) .fnil

def c4exDecl : Fields :=
  .fcons (.mk "a" false true (.prim (.pstr "x")) none true (.prim (.pstr "y")))
    (.fcons (.mk "sub" true false (.prim .pnone) none true (.nested c4exInner)) .fnil)

theorem c4_reconciliation_idempotent_witness :
    concreteD c4exDecl = true ∧ withArgumentsF c4exDecl [] = .ok c4exDecl :=
  ⟨rfl, c4_reconciliation_idempotent c4exDecl rfl (by decide)⟩

theorem hidden_value_shape (v : FieldVal) (hh : isSpecialArg v [.hidden] = true) :
    ∃ sa skw, v = .special .hidden sa skw := by
  cases v with
  | prim p =>
      exfalso
      cases p <;> simp [isSpecialArg, List.contains] at hh
  | special k sa skw =>
      cases k with
      | hidden => exact ⟨sa, skw, rfl⟩
      | required => simp [isSpecialArg, List.contains] at hh
      | optional => simp [isSpecialArg, List.contains] at hh
  | nested dd => simp [isSpecialArg] at hh

theorem entryFor_hidden (kwargs : List (String × FieldVal)) (f : FieldD)
    (hh : isSpecialArg f.value [.hidden] = true) :
    (∀ ent, entryFor kwargs f = .ok ent →
      f.hasDefault = true ∧ ent = [(f.name, f.dflt)]) ∧
    (f.hasDefault = false → ∀ ent, entryFor kwargs f ≠ .ok ent) := by
  obtain ⟨sa, skw, hv⟩ := hidden_value_shape f.value hh
  obtain ⟨n, isExp, hasD, dflt0, m, i, v⟩ := f
  simp only [FieldD.value] at hv
  subst hv
  cases isExp with
  | true =>
      constructor
      · intro ent h
        exact Except.noConfusion h
      · intro _ ent h
        exact Except.noConfusion h
  | false =>
      have hred : entryFor kwargs
          (.mk n false hasD dflt0 m i (.special .hidden sa skw)) =
          (if hasD then .ok [(n, dflt0)]
           else .error ("Field " ++ n ++
             " was hidden but does not have a default value or factory.")) := rfl
      cases hasD with
      | true =>
          constructor
          · intro ent h
            rw [hred] at h
            injection h with h
            exact ⟨rfl, h.symm⟩
          · intro hfalse
            cases hfalse
      | false =>
          constructor
          · intro ent h
            rw [hred] at h
            exact Except.noConfusion h
          · intro _ ent h
            rw [hred] at h
            exact Except.noConfusion h

theorem entryFor_ok_keys (kwargs : List (String × FieldVal)) (f : FieldD)
    (ent : List (String × FieldVal)) (h : entryFor kwargs f = .ok ent) :
    ent = [] ∨ ∃ v, ent = [(f.name, v)] := by
  obtain ⟨n, isExp, hasD, dflt0, m, i, v⟩ := f
  unfold entryFor at h
  cases isExp with
  | true =>
      cases v with
      | nested sub =>
          simp only [if_pos rfl] at h
          cases hnf : newFieldsOf kwargs sub with
          | error e => rw [hnf] at h; exact Except.noConfusion h
          | ok nf =>
              rw [hnf] at h
              injection h with h
              exact Or.inr ⟨_, h.symm⟩
      | prim p => exact Except.noConfusion h
      | special k sa skw => exact Except.noConfusion h
  | false =>
      simp only [Bool.false_eq_true, if_false] at h
      split at h
      · split at h
        · injection h with h
          exact Or.inr ⟨_, h.symm⟩
        · exact Except.noConfusion h
      · injection h with h
        exact Or.inl h.symm

theorem newFieldsOf_ok_char (kwargs : List (String × FieldVal)) :
    ∀ (d : Fields) (nf : List (String × FieldVal)),
      newFieldsOf kwargs d = .ok nf →
      (nf.map Prod.fst).Sublist (namesOfF d) ∧
      (∀ f, f ∈ fieldsList d → isSpecialArg f.value [.hidden] = true →
        f.hasDefault = true ∧ (f.name, f.dflt) ∈ nf)
  | .fnil, nf, h => by
      injection h with h
      subst h
      exact ⟨by simp [namesOfF, fieldsList], fun f hf => by simp [fieldsList] at hf⟩
  | .fcons g r, nf, h => by
      unfold newFieldsOf at h
      cases hent : entryFor kwargs g with
      | error e => rw [hent] at h; exact Except.noConfusion h
      | ok ent =>
          rw [hent] at h
          cases htail : newFieldsOf kwargs r with
          | error e => rw [htail] at h; exact Except.noConfusion h
          | ok tail =>
              rw [htail] at h
              injection h with h
              subst h
              obtain ⟨hsub, hmem⟩ := newFieldsOf_ok_char kwargs r tail htail
              constructor
              · show ((ent ++ tail).map Prod.fst).Sublist (g.name :: namesOfF r)
                rw [List.map_append]
                rcases entryFor_ok_keys kwargs g ent hent with he | ⟨w, he⟩
                · subst he
                  simp only [List.map_nil, List.nil_append]
                  exact hsub.trans (List.sublist_cons_self _ _)
                · subst he
                  simp only [List.map_cons, List.map_nil, List.singleton_append]
                  exact List.Sublist.cons₂ _ hsub
              · intro f hf hhid
                rcases List.mem_cons.mp hf with hfe | hfm
                · subst hfe
                  obtain ⟨hd, hent2⟩ := (entryFor_hidden kwargs f hhid).1 ent hent
                  refine ⟨hd, ?_⟩
                  rw [hent2]
                  exact List.mem_append_left _ (List.mem_singleton.mpr rfl)
                · obtain ⟨hd, hm⟩ := hmem f hfm hhid
                  exact ⟨hd, List.mem_append_right _ hm⟩

theorem newFieldsOf_no_ok (kwargs : List (String × FieldVal)) :
    ∀ (d : Fields) (f : FieldD),
      f ∈ fieldsList d → (∀ ent, entryFor kwargs f ≠ .ok ent) →
      ∀ nf, newFieldsOf kwargs d ≠ .ok nf
  | .fnil, f, hf, _, _ => by simp [fieldsList] at hf
  | .fcons g r, f, hf, herr, nf => by
      intro h
      unfold newFieldsOf at h
      cases hent : entryFor kwargs g with
      | error e => rw [hent] at h; exact Except.noConfusion h
      | ok ent =>
          rw [hent] at h
          rcases List.mem_cons.mp hf with hfe | hfm
          · subst hfe
            exact herr ent hent
          · cases htail : newFieldsOf kwargs r with
            | error e => rw [htail] at h; exact Except.noConfusion h
            | ok tail => exact newFieldsOf_no_ok kwargs r f hfm herr tail htail

theorem findField_applyUpdates : ∀ (d : Fields) (upd : List (String × FieldVal))
    (f : FieldD) (v : FieldVal),
    (namesOfF d).Nodup → f ∈ fieldsList d → dictGet upd f.name = some v →
    findField (applyUpdates d upd) f.name = some (f.setValue v)
  | .fnil, _, f, _, _, hf, _ => by simp [fieldsList] at hf
  | .fcons g r, upd, f, v, hnd, hf, hget => by
      simp only [namesOfF, fieldsList, List.map_cons, List.nodup_cons] at hnd
      rcases List.mem_cons.mp hf with hfe | hfm
      · subst hfe
        simp only [applyUpdates, hget]
        simp [findField, setValue_name]
      · have hne : g.name ≠ f.name := by
          intro e
          exact hnd.1 (e ▸ List.mem_map_of_mem FieldD.name hfm)
        have hname : (match dictGet upd g.name with
            | some w => g.setValue w
            | none => g).name = g.name := by
          cases dictGet upd g.name <;> simp [setValue_name]
        simp only [applyUpdates, findField]
        rw [if_neg (by rw [hname]; exact hne)]
        exact findField_applyUpdates r upd f v
          (by simpa [namesOfF] using hnd.2) hfm hget

/-- C5: reconciliation resolves every hidden field to its static default
(or default-factory result): whenever `with_arguments` succeeds, each field
whose current value is the hidden sentinel had a default and appears in the
result holding exactly that default; and a hidden field without a default
makes `with_arguments` fail before producing any new declaration. -/
theorem c5_hidden_resolution (d : Fields) (kwargs : List (String × FieldVal))
    (hnd : (namesOfF d).Nodup) :
    (∀ d', withArgumentsF d kwargs = .ok d' →
      ∀ f, f ∈ fieldsList d → isSpecialArg f.value [.hidden] = true →
        f.hasDefault = true ∧ findField d' f.name = some (f.setValue f.dflt)) ∧
    (∀ f, f ∈ fieldsList d → isSpecialArg f.value [.hidden] = true →
      f.hasDefault = false → ∀ d', withArgumentsF d kwargs ≠ .ok d') := by
  constructor
  · intro d' hok f hf hh
    unfold withArgumentsF at hok
    cases hnf : newFieldsOf kwargs d with
    | error e => rw [hnf] at hok; exact Except.noConfusion hok
    | ok nf =>
        rw [hnf] at hok
        injection hok with hok
        subst hok
        obtain ⟨hsub, hmem⟩ := newFieldsOf_ok_char kwargs d nf hnf
        obtain ⟨hd, hm⟩ := hmem f hf hh
        refine ⟨hd, ?_⟩
        apply findField_applyUpdates d _ f _ hnd hf
        exact dictGet_update_mem_nodup nf _ _ _ (hnd.sublist hsub) hm
  · intro f hf hh hdno d' hok
    have herr := (entryFor_hidden kwargs f hh).2 hdno
    unfold withArgumentsF at hok
    cases hnf : newFieldsOf kwargs d with
    | error e => rw [hnf] at hok; exact Except.noConfusion hok
    | ok nf => exact newFieldsOf_no_ok kwargs d f hf herr nf hnf

/-- A declaration with one hidden field that has default `"D"`. -/
def c5exField : FieldD :=
  .mk "t" false true (.prim (.pstr "D")) none true (.special .hidden [] [])

def c5exDecl : Fields := .fcons c5exField .fnil

/-- The reconciliation of `c5exDecl`: the hidden field holds its default. -/
def c5exOut : Fields :=
  .fcons (.mk "t" false true (.prim (.pstr "D")) none true (.prim (.pstr "D"))) .fnil

theorem c5_hidden_resolution_witness :
    FieldD.hasDefault c5exField = true ∧
    findField c5exOut "t" = some (c5exField.setValue c5exField.dflt) := by
  have h := (c5_hidden_resolution c5exDecl [] (by decide)).1 c5exOut rfl c5exField
    (by show c5exField ∈ [c5exField]; exact List.mem_singleton.mpr rfl) rfl
  exact h

/-! ### The flat registration tree (`AttrTree2`, `src/my/utils/tree.py`) -/

/-- `AttrTree2`: the flat, path-keyed registration structure.  `exposed` is
the `_exposed` dict mapping full dotted paths to the configured item value;
`items` is the `_items` list of `AttrItem(path, item_name, item)` records
(`config.item_name`/`config.item_value` are applied by the caller, so an
item is its name paired with its stored value). -/
structure AttrTree2 (V : Type) where
  exposed : List (String × V)
  items : List (String × String × V)

/-- `AttrItem.fullpath`: `path + "." + item_name`, or just the name at the
root. -/
def fullpathOf (path iname : String) : String :=
  if path = "" then iname else path ++ "." ++ iname

/-- `AttrTree2.add_item`. -/
def addItem2 {V : Type} (t : AttrTree2 V) (iname : String) (v : V) (path : String) :
    AttrTree2 V :=
  { exposed := dictSet t.exposed (fullpathOf path iname) v,
    items := t.items ++ [(path, iname, v)] }

/-- The empty tree. -/
def emptyTree2 (V : Type) : AttrTree2 V := ⟨[], []⟩

/-- One pending insertion: item name, item value, dotted path. -/
structure Ins (V : Type) where
  iname : String
  ival : V
  ipath : String
deriving DecidableEq

/-- A sequence of `add_item` calls. -/
def insertAll2 {V : Type} (t : AttrTree2 V) (l : List (Ins V)) : AttrTree2 V :=
  l.foldl (fun acc i => addItem2 acc i.iname i.ival i.ipath) t

/-- Python `str.startswith`, computed on the character lists. -/
def strStartsWith (s p : String) : Bool := List.isPrefixOf p.data s.data

/-- Python `str.endswith`, computed on the character lists. -/
def strEndsWith (s p : String) : Bool := List.isSuffixOf p.data s.data

/-- Split a character list on `'.'` (Python `str.split('.')` semantics:
the empty string yields one empty segment). -/
def splitCharList : List Char → List (List Char)
  | [] => [[]]
  | c :: rest =>
      let r := splitCharList rest
      if c = '.' then [] :: r
      else match r with
        | [] => [[c]]
        | h :: t => (c :: h) :: t

/-- Python `fullpath.split('.')`. -/
def splitDots (s : String) : List String := (splitCharList s.data).map String.mk

/-- Python `".".join(parts)`. -/
def joinDots : List String → String
  | [] => ""
  | [s] => s
  | s :: rest => s ++ "." ++ joinDots rest

/-- `AttrTree2._path_is_module`: some stored path strictly extends the
query. -/
def pathIsModule {V : Type} (t : AttrTree2 V) (path : String) : Bool :=
  (t.exposed.map Prod.fst).any (fun k => strStartsWith k path && k != path)

/-- The stored full paths matching a short-name query: those that start
with the query's dotted prefix and end with its last segment. -/
def matchKeys {V : Type} (t : AttrTree2 V) (fullpath : String) : List String :=
  let parts := splitDots fullpath
  let iname := parts.getLastD ""
  let path := joinDots parts.dropLast
  (t.exposed.map Prod.fst).filter
    (fun k => strStartsWith k path && strEndsWith k iname)

/-- `AttrTree2.get_partial_name`: split the query on dots into prefix and
last segment, collect the stored paths that start with the prefix and end
with the segment, and return the stored item when exactly one matches;
raise `AttributeError` otherwise. -/
def getPartialName {V : Type} (t : AttrTree2 V) (fullpath : String) : Except Unit V :=
  let keys := matchKeys t fullpath
  if keys.length = 1 then
    match dictGet t.exposed (keys.headD "") with
    | some v => .ok v
    | none => .error ()
  else .error ()

/-- The result of `AttrTree2.get_item`: a stored item or a subtree view. -/
inductive ItemOrView (V : Type) where
  | item (v : V)
  | view (path : String)

/-- `AttrTree2.get_item`: exact hit in `_exposed`, else a view when the
path is a module prefix, else shortest-unique-suffix lookup. -/
def getItem2 {V : Type} (t : AttrTree2 V) (fullpath : String) :
    Except Unit (ItemOrView V) :=
  match dictGet t.exposed fullpath with
  | some v => .ok (.item v)
  | none =>
      if pathIsModule t fullpath then .ok (.view fullpath)
      else match getPartialName t fullpath with
        | .ok v => .ok (.item v)
        | .error e => .error e

/-- `AttrTree2.as_list`: the stored (full path, item) pairs. -/
def asList2 {V : Type} (t : AttrTree2 V) : List (String × V) := t.exposed

/-- The full dotted path of one insertion. -/
def fpOf {V : Type} (i : Ins V) : String := fullpathOf i.ipath i.iname

theorem insertAll2_get_stable {V : Type} (l : List (Ins V)) :
    ∀ (t : AttrTree2 V) (k : String), k ∉ l.map fpOf →
      dictGet (insertAll2 t l).exposed k = dictGet t.exposed k := by
  induction l with
  | nil => intro t k _; rfl
  | cons j rest ih =>
      intro t k hk
      simp only [List.map_cons, List.mem_cons] at hk
      push_neg at hk
      show dictGet (insertAll2 (addItem2 t j.iname j.ival j.ipath) rest).exposed k =
        dictGet t.exposed k
      rw [ih _ k hk.2]
      exact dictGet_set_ne _ _ _ _ hk.1

theorem insertAll2_get {V : Type} (l : List (Ins V)) :
    ∀ (t : AttrTree2 V) (i : Ins V), (l.map fpOf).Nodup → i ∈ l →
      dictGet (insertAll2 t l).exposed (fpOf i) = some i.ival := by
  induction l with
  | nil => intro t i _ h; cases h
  | cons j rest ih =>
      intro t i hnd hi
      simp only [List.map_cons, List.nodup_cons] at hnd
      rcases List.mem_cons.mp hi with he | hm
      · subst he
        show dictGet (insertAll2 (addItem2 t i.iname i.ival i.ipath) rest).exposed
          (fpOf i) = some i.ival
        rw [insertAll2_get_stable rest _ _ hnd.1]
        exact dictGet_set_self _ _ _
      · exact ih _ i hnd.2 hm

/-- C2: after any sequence of insertions with pairwise-distinct full
dotted paths, looking up an inserted item's full path returns exactly that
item, and the full enumeration contains the (full path, item) pair. -/
theorem c2_insert_lookup_roundtrip {V : Type} (l : List (Ins V))
    (hdist : (l.map fpOf).Nodup) :
    ∀ i ∈ l,
      getItem2 (insertAll2 (emptyTree2 V) l) (fpOf i) = .ok (.item i.ival) ∧
      (fpOf i, i.ival) ∈ asList2 (insertAll2 (emptyTree2 V) l) := by
  intro i hi
  have hget := insertAll2_get l (emptyTree2 V) i hdist hi
  constructor
  · unfold getItem2
    rw [hget]
  · exact dictGet_mem _ _ _ hget

/-- The spec's example insertions: `bully.frenchy → Ollie`,
`bully → Lucky`, `"" → Rouky`. -/
def c2inserts : List (Ins String) :=
  [⟨"Ollie", "OllieV", "bully.frenchy"⟩, ⟨"Lucky", "LuckyV", "bully"⟩,
   ⟨"Rouky", "RoukyV", ""⟩]

def c2tree : AttrTree2 String := insertAll2 (emptyTree2 String) c2inserts

theorem c2_insert_lookup_roundtrip_witness :
    (getItem2 c2tree "bully.frenchy.Ollie" = .ok (.item "OllieV") ∧
      ("bully.frenchy.Ollie", "OllieV") ∈ asList2 c2tree) ∧
    (getItem2 c2tree "bully.Lucky" = .ok (.item "LuckyV") ∧
      ("bully.Lucky", "LuckyV") ∈ asList2 c2tree) ∧
    (getItem2 c2tree "Rouky" = .ok (.item "RoukyV") ∧
      ("Rouky", "RoukyV") ∈ asList2 c2tree) := by
  have h := c2_insert_lookup_roundtrip c2inserts (by decide)
  exact ⟨h ⟨"Ollie", "OllieV", "bully.frenchy"⟩ (by decide),
         h ⟨"Lucky", "LuckyV", "bully"⟩ (by decide),
         h ⟨"Rouky", "RoukyV", ""⟩ (by decide)⟩

/-- C7: short-name lookup over any tree state: when exactly one stored
path matches the query (starts with its dotted prefix, ends with its last
segment), `get_partial_name` returns the item stored at that path; when
zero or several match, it fails with a lookup error. -/
theorem c7_short_name_lookup {V : Type} (t : AttrTree2 V) (q : String) :
    (∀ k, matchKeys t q = [k] →
      ∃ v, dictGet t.exposed k = some v ∧ getPartialName t q = .ok v) ∧
    ((matchKeys t q).length ≠ 1 → getPartialName t q = .error ()) := by
  constructor
  · intro k hk
    have hmem : k ∈ (t.exposed.map Prod.fst) := by
      have : k ∈ matchKeys t q := by rw [hk]; exact List.mem_singleton.mpr rfl
      exact (List.mem_filter.mp this).1
    have hhas : dictHas t.exposed k = true := (dictHas_iff_mem_keys _ _).mpr hmem
    cases hv : dictGet t.exposed k with
    | none => rw [dictHas, hv] at hhas; cases hhas
    | some v =>
        refine ⟨v, rfl, ?_⟩
        unfold getPartialName
        rw [hk]
        simp [List.headD_cons, hv]
  · intro hlen
    unfold getPartialName
    rw [if_neg hlen]

def c7tree : AttrTree2 String := ⟨[("bully.Lucky", "L"), ("Rouky", "R")], []⟩

theorem c7_short_name_lookup_witness :
    getPartialName c7tree "Lucky" = .ok "L" ∧
    getPartialName c7tree "ky" = .error () := by
  obtain ⟨v, hv, hres⟩ := (c7_short_name_lookup c7tree "Lucky").1 "bully.Lucky" (by decide)
  have h2 := (c7_short_name_lookup c7tree "ky").2 (by decide)
  have hvL : v = "L" := by
    rw [show dictGet c7tree.exposed "bully.Lucky" = some "L" from rfl] at hv
    injection hv with hv
    exact hv.symm
  exact ⟨hvL ▸ hres, h2⟩

/-! ### Process composition (`ProcessRunner.__or__`, `src/my/commands/common.py`) -/

/-- Runnables for the composition layer: a shell `Command` (or any other
base `ProcessRunner`), a `SequentialProcessRunner` (sub-runnables plus the
`piped` flag), and a `StdinConverter` wrapping a target. -/
inductive Runnable where
  | cmd (s : String)
  | seq (subs : List Runnable) (piped : Bool)
  | conv (target : Runnable)

/-- `ProcessRunner.__or__`: composing into a `StdinConverter` always wraps
both operands in a non-piped Sequential; otherwise a piped Sequential on
the left is extended, any other left operand is wrapped in a new piped
Sequential. -/
def orOp (self other : Runnable) : Runnable :=
  match other with
  | .conv t => .seq [self, .conv t] false
  | _ =>
      match self with
      | .seq subs piped =>
          if piped then .seq (subs ++ [other]) true
          else .seq [.seq subs piped, other] true
      | s => .seq [s, other] true

/-- C3 evaluated at the failing input: `Command("a") | StdinConverter(...)
| Command("b")` produces a PIPED Sequential whose first element is the
non-piped Sequential `[a, converter]` — not the non-piped Sequential the
spec describes (and not an extension of the existing Sequential). -/
theorem c3_pipe_into_converter_eval :
    orOp (orOp (.cmd "a") (.conv (.cmd "t"))) (.cmd "b") =
      .seq [.seq [.cmd "a", .conv (.cmd "t")] false, .cmd "b"] true ∧
    (orOp (.cmd "x") (.seq [.cmd "b", .cmd "c"] true) =
      .seq [.cmd "x", .seq [.cmd "b", .cmd "c"] true] true) := by
  exact ⟨rfl, rfl⟩

/-! ### The node-based registration tree (`AttrTree`, `src/my/utils/tree.py`;
`NamedTree` in `src/my/plugins/load.py` is identical code).

A node holds its `exposed` dict (directly exposed leaf items), the dynamic
instance attributes bound by `setattr` (an item value or a group marker),
and its `leafs` dict of child nodes.  `expose_leafs_items` is threaded as a
parameter (the source copies one config down the whole tree).  The node's
`name`/`root` fields only affect `as_list` rendering and are not modelled;
`hasattr` is modelled on the dynamic instance attributes (class-level
attributes such as methods are outside the model, so path segments shadowing
them are not covered). -/

/-- An attribute bound on a node: an exposed item's value, or a child
group. -/
inductive AttrV (V : Type) where
  | item (v : V)
  | group
deriving DecidableEq

mutual
inductive ANode (V : Type) where
  | mk (exposed : List (String × V)) (attrs : List (String × AttrV V))
       (leafs : LeafMap V)

inductive LeafMap (V : Type) where
  | lnil
  | lcons (nm : String) (child : ANode V) (rest : LeafMap V)
end

namespace ANode

def exposedL {V : Type} : ANode V → List (String × V)
  | .mk e _ _ => e

def attrsL {V : Type} : ANode V → List (String × AttrV V)
  | .mk _ a _ => a

def leafsL {V : Type} : ANode V → LeafMap V
  | .mk _ _ l => l

end ANode

namespace LeafMap

/-- Lookup a child node (`self.leafs[name]`, first binding wins). -/
def find {V : Type} : LeafMap V → String → Option (ANode V)
  | .lnil, _ => none
  | .lcons nm c rest, n => if nm = n then some c else find rest n

/-- `self.leafs[name] = node` (replace in place or append, dict
semantics). -/
def setChild {V : Type} : LeafMap V → String → ANode V → LeafMap V
  | .lnil, n, node => .lcons n node .lnil
  | .lcons nm c rest, n, node =>
      if nm = n then .lcons n node rest else .lcons nm c (setChild rest n node)

end LeafMap

/-- `hasattr(self, name)` on the dynamic attributes of a node. -/
def hasAttrN {V : Type} (n : ANode V) (a : String) : Bool :=
  dictHas n.attrsL a

/-- `AttrTree._expose_item(item, only_attr)`: assert the item's name does
not collide with a child group, then expose it in the `exposed` dict unless
`only_attr`, and bind it as an instance attribute when
`expose_leafs_items` is set. -/
def exposeItem {V : Type} (cfg : Bool) (n : ANode V) (iname : String) (v : V)
    (onlyAttr : Bool) : Except String (ANode V) :=
  if (n.leafsL.find iname).isSome then
    .error ("Cannot add item with name '" ++ iname ++
      "' because it has the same name as a group.")
  else
    let e1 := if !onlyAttr then dictSet n.exposedL iname v else n.exposedL
    let a1 := if cfg then dictSet n.attrsL iname (.item v) else n.attrsL
    .ok (.mk e1 a1 n.leafsL)

/-- A freshly created child group node. -/
def emptyNode (V : Type) : ANode V := .mk [] [] .lnil

/-- The lazy group-creation step of `add_item`: when no attribute of the
segment's name exists, create a fresh child node, bind it as an attribute
and store it under `leafs`. -/
def stepNode {V : Type} (n1 : ANode V) (leafName : String) : ANode V :=
  if hasAttrN n1 leafName then n1
  else ANode.mk n1.exposedL (dictSet n1.attrsL leafName .group)
    (n1.leafsL.setChild leafName (emptyNode V))

/-- `AttrTree.add_item(item, hierarchy)`: expose at the current node
(attribute-only when descending further), lazily create the next child
group (bound both as an attribute and in `leafs`) when no attribute of
that name exists, then recurse into `self.leafs[segment]` — a `KeyError`
when the attribute that blocked creation is not a group. -/
def addItemN {V : Type} (cfg : Bool) (iname : String) (v : V) :
    List String → ANode V → Except String (ANode V)
  | [], n =>
      exposeItem cfg n iname v false
  | leafName :: rest, n =>
      match exposeItem cfg n iname v true with
      | .error e => .error e
      | .ok n1 =>
          let n2 := stepNode n1 leafName
          match n2.leafsL.find leafName with
          | none => .error ("KeyError: " ++ leafName)
          | some child =>
              match addItemN cfg iname v rest child with
              | .error e => .error e
              | .ok child' =>
                  .ok (.mk n2.exposedL n2.attrsL
                    (n2.leafsL.setChild leafName child'))

/-- One pending node-tree insertion: item name, item value, hierarchy
segments (already split; the callers in `my/plugins/load.py` pass
`export_path.split(".")`, or no segments for an empty path). -/
structure InsN (V : Type) where
  iname : String
  ival : V
  hier : List String
deriving DecidableEq

/-- A sequence of `add_item` calls, failing on the first error. -/
def insertAllN {V : Type} (cfg : Bool) : ANode V → List (InsN V) →
    Except String (ANode V)
  | n, [] => .ok n
  | n, i :: rest =>
      match addItemN cfg i.iname i.ival i.hier n with
      | .error e => .error e
      | .ok n' => insertAllN cfg n' rest

namespace LeafMap

theorem find_setChild_self {V : Type} :
    ∀ (m : LeafMap V) (k : String) (c : ANode V), (m.setChild k c).find k = some c
  | .lnil, k, c => by simp [setChild, find]
  | .lcons nm c0 rest, k, c => by
      by_cases h : nm = k
      · simp [setChild, find, h]
      · simp [setChild, find, h, find_setChild_self rest k c]

theorem find_setChild_ne {V : Type} :
    ∀ (m : LeafMap V) (k k' : String) (c : ANode V), k' ≠ k →
      (m.setChild k c).find k' = m.find k'
  | .lnil, k, k', c, h => by
      have hkk : ¬ (k = k') := fun e => h e.symm
      simp [setChild, find, hkk]
  | .lcons nm c0 rest, k, k', c, h => by
      have hkk : ¬ (k = k') := fun e => h e.symm
      by_cases h1 : nm = k
      · subst h1
        simp [setChild, find, hkk]
      · simp [setChild, find, h1, find_setChild_ne rest k k' c h]

end LeafMap

/-- Monotonicity of key presence under dict assignment. -/
theorem dictGet_set_isSome {α : Type} (m : List (String × α)) (k k' : String) (v : α)
    (h : (dictGet m k').isSome = true) : (dictGet (dictSet m k v) k').isSome = true := by
  by_cases he : k' = k
  · subst he
    rw [dictGet_set_self]
    rfl
  · rw [dictGet_set_ne _ _ _ _ he]
    exact h

/-- Every child-group key of a leaf map is bound as an attribute. -/
def leafKeysHaveAttrs {V : Type} : LeafMap V → List (String × AttrV V) → Bool
  | .lnil, _ => true
  | .lcons nm _ rest, a => dictHas a nm && leafKeysHaveAttrs rest a

theorem lkha_mono_attrs {V : Type} :
    ∀ (l : LeafMap V) (a : List (String × AttrV V)) (k : String) (x : AttrV V),
      leafKeysHaveAttrs l a = true → leafKeysHaveAttrs l (dictSet a k x) = true
  | .lnil, _, _, _, _ => rfl
  | .lcons nm c rest, a, k, x, h => by
      simp only [leafKeysHaveAttrs, Bool.and_eq_true] at h ⊢
      exact ⟨dictGet_set_isSome a k nm x h.1, lkha_mono_attrs rest a k x h.2⟩

theorem lkha_setChild {V : Type} :
    ∀ (l : LeafMap V) (a : List (String × AttrV V)) (k : String) (c : ANode V),
      leafKeysHaveAttrs l a = true → dictHas a k = true →
      leafKeysHaveAttrs (l.setChild k c) a = true
  | .lnil, a, k, c, _, hk => by simp [LeafMap.setChild, leafKeysHaveAttrs, hk]
  | .lcons nm c0 rest, a, k, c, h, hk => by
      simp only [leafKeysHaveAttrs, Bool.and_eq_true] at h
      by_cases h1 : nm = k
      · subst h1
        simp only [LeafMap.setChild, if_pos rfl, leafKeysHaveAttrs, Bool.and_eq_true]
        exact ⟨hk, h.2⟩
      · simp only [LeafMap.setChild, if_neg h1, leafKeysHaveAttrs, Bool.and_eq_true]
        exact ⟨h.1, lkha_setChild rest a k c h.2 hk⟩

theorem lkha_find_has {V : Type} :
    ∀ (l : LeafMap V) (a : List (String × AttrV V)) (s : String) (c : ANode V),
      leafKeysHaveAttrs l a = true → l.find s = some c → dictHas a s = true
  | .lnil, _, _, _, _, hf => by cases hf
  | .lcons nm c0 rest, a, s, c, h, hf => by
      simp only [leafKeysHaveAttrs, Bool.and_eq_true] at h
      by_cases h1 : nm = s
      · subst h1
        exact h.1
      · simp only [LeafMap.find, if_neg h1] at hf
        exact lkha_find_has rest a s c h.2 hf

mutual
/-- The reachable-state invariant of the node tree: every child-group key
is bound as an attribute, recursively.  (It holds at the empty root and is
preserved by `add_item`; the source maintains it because group creation
always `setattr`s.) -/
def goodN {V : Type} : ANode V → Bool
  | .mk _ a l => leafKeysHaveAttrs l a && goodLM l

def goodLM {V : Type} : LeafMap V → Bool
  | .lnil => true
  | .lcons _ c rest => goodN c && goodLM rest
end

theorem goodLM_find {V : Type} : ∀ (l : LeafMap V) (s : String) (c : ANode V),
    goodLM l = true → l.find s = some c → goodN c = true
  | .lnil, _, _, _, hf => by cases hf
  | .lcons nm c0 rest, s, c, hg, hf => by
      simp only [goodLM, Bool.and_eq_true] at hg
      by_cases h1 : nm = s
      · simp only [LeafMap.find, if_pos h1] at hf
        injection hf with hf
        exact hf ▸ hg.1
      · simp only [LeafMap.find, if_neg h1] at hf
        exact goodLM_find rest s c hg.2 hf

theorem goodLM_setChild {V : Type} : ∀ (l : LeafMap V) (k : String) (c : ANode V),
    goodLM l = true → goodN c = true → goodLM (l.setChild k c) = true
  | .lnil, k, c, _, hc => by simp [LeafMap.setChild, goodLM, hc]
  | .lcons nm c0 rest, k, c, hg, hc => by
      simp only [goodLM, Bool.and_eq_true] at hg
      by_cases h1 : nm = k
      · simp only [LeafMap.setChild, if_pos h1, goodLM, Bool.and_eq_true]
        exact ⟨hc, hg.2⟩
      · simp only [LeafMap.setChild, if_neg h1, goodLM, Bool.and_eq_true]
        exact ⟨hg.1, goodLM_setChild rest k c hg.2 hc⟩

theorem exposeItem_ok_shape {V : Type} (cfg : Bool) (n : ANode V) (iname : String)
    (v : V) (onlyAttr : Bool) (n' : ANode V)
    (h : exposeItem cfg n iname v onlyAttr = .ok n') :
    n' = .mk (if !onlyAttr then dictSet n.exposedL iname v else n.exposedL)
             (if cfg then dictSet n.attrsL iname (.item v) else n.attrsL)
             n.leafsL ∧
    (n.leafsL.find iname).isSome = false := by
  unfold exposeItem at h
  split at h
  · exact Except.noConfusion h
  · injection h with h
    refine ⟨h.symm, ?_⟩
    rename_i hcond
    simpa using hcond

theorem exposeItem_good {V : Type} (cfg : Bool) (n : ANode V) (iname : String)
    (v : V) (onlyAttr : Bool) (n' : ANode V)
    (hg : goodN n = true) (h : exposeItem cfg n iname v onlyAttr = .ok n') :
    goodN n' = true := by
  obtain ⟨rfl, _⟩ := exposeItem_ok_shape cfg n iname v onlyAttr n' h
  obtain ⟨e, a, l⟩ := n
  simp only [goodN, ANode.exposedL, ANode.attrsL, ANode.leafsL, Bool.and_eq_true] at hg ⊢
  refine ⟨?_, hg.2⟩
  cases cfg with
  | true => simpa using lkha_mono_attrs l a iname (.item v) hg.1
  | false => simpa using hg.1

/-- Walk the tree down a list of segments through `leafs`. -/
def nodeAt {V : Type} : List String → ANode V → Option (ANode V)
  | [], n => some n
  | s :: p, n =>
      match n.leafsL.find s with
      | some c => nodeAt p c
      | none => none

theorem goodN_empty (V : Type) : goodN (emptyNode V) = true := rfl

theorem stepNode_good {V : Type} (n1 : ANode V) (leafName : String)
    (hg : goodN n1 = true) : goodN (stepNode n1 leafName) = true := by
  unfold stepNode
  split
  · exact hg
  · obtain ⟨e, a, l⟩ := n1
    simp only [goodN, ANode.exposedL, ANode.attrsL, ANode.leafsL,
      Bool.and_eq_true] at hg ⊢
    constructor
    · exact lkha_setChild _ _ _ _ (lkha_mono_attrs l a leafName .group hg.1)
        (dictHas_set_self a leafName .group)
    · exact goodLM_setChild l leafName (emptyNode V) hg.2 (goodN_empty V)

theorem stepNode_attrs_some {V : Type} (n1 : ANode V) (leafName a : String)
    (h : (dictGet n1.attrsL a).isSome = true) :
    (dictGet (stepNode n1 leafName).attrsL a).isSome = true := by
  unfold stepNode
  split
  · exact h
  · obtain ⟨e, at0, l⟩ := n1
    simp only [ANode.attrsL] at h ⊢
    exact dictGet_set_isSome _ _ _ _ h

theorem stepNode_attr_get {V : Type} (n1 : ANode V) (leafName iname : String)
    (x : AttrV V) (hget : dictGet n1.attrsL iname = some x) :
    dictGet (stepNode n1 leafName).attrsL iname = some x := by
  unfold stepNode
  split
  · exact hget
  · rename_i hattr
    have hne : iname ≠ leafName := by
      intro e
      subst e
      rw [hasAttrN, dictHas, hget] at hattr
      simp at hattr
    obtain ⟨e, at0, l⟩ := n1
    simp only [ANode.attrsL] at hget ⊢
    rw [dictGet_set_ne _ _ _ _ hne]
    exact hget

theorem stepNode_find_ne {V : Type} (n1 : ANode V) (leafName s : String)
    (h : s ≠ leafName) :
    (stepNode n1 leafName).leafsL.find s = n1.leafsL.find s := by
  unfold stepNode
  split
  · rfl
  · obtain ⟨e, at0, l⟩ := n1
    simp only [ANode.leafsL]
    exact LeafMap.find_setChild_ne _ _ _ _ h

theorem stepNode_find_self_of_no_attr {V : Type} (n1 : ANode V) (leafName : String)
    (hattr : hasAttrN n1 leafName = false) :
    (stepNode n1 leafName).leafsL.find leafName = some (emptyNode V) := by
  unfold stepNode
  rw [if_neg (by rw [hattr]; simp)]
  obtain ⟨e, at0, l⟩ := n1
  simp only [ANode.leafsL]
  exact LeafMap.find_setChild_self _ _ _

theorem find_none_of_no_attr {V : Type} (n1 : ANode V) (leafName : String)
    (hg : goodN n1 = true) (hattr : hasAttrN n1 leafName = false) :
    n1.leafsL.find leafName = none := by
  obtain ⟨e, a, l⟩ := n1
  simp only [goodN, Bool.and_eq_true] at hg
  cases hfind : LeafMap.find l leafName with
  | none => exact hfind
  | some c =>
      exfalso
      have := lkha_find_has l a leafName c hg.1 hfind
      rw [hasAttrN] at hattr
      simp only [ANode.attrsL] at hattr
      rw [this] at hattr
      cases hattr

theorem exposeItem_attrs_some {V : Type} (cfg : Bool) (n : ANode V) (iname : String)
    (v : V) (onlyAttr : Bool) (n' : ANode V) (a : String)
    (h : exposeItem cfg n iname v onlyAttr = .ok n')
    (ha : (dictGet n.attrsL a).isSome = true) :
    (dictGet n'.attrsL a).isSome = true := by
  obtain ⟨rfl, _⟩ := exposeItem_ok_shape cfg n iname v onlyAttr n' h
  cases cfg with
  | true =>
      simp only [ANode.attrsL, if_pos rfl]
      exact dictGet_set_isSome _ _ _ _ ha
  | false => simpa [ANode.attrsL] using ha

theorem exposeItem_leafs {V : Type} (cfg : Bool) (n : ANode V) (iname : String)
    (v : V) (onlyAttr : Bool) (n' : ANode V)
    (h : exposeItem cfg n iname v onlyAttr = .ok n') :
    n'.leafsL = n.leafsL := by
  obtain ⟨rfl, _⟩ := exposeItem_ok_shape cfg n iname v onlyAttr n' h
  rfl

theorem addItemN_good {V : Type} (cfg : Bool) (iname : String) (v : V) :
    ∀ (hier : List String) (n n' : ANode V),
      goodN n = true → addItemN cfg iname v hier n = .ok n' → goodN n' = true
  | [], n, n', hg, h => exposeItem_good cfg n iname v false n' hg h
  | leafName :: rest, n, n', hg, h => by
      unfold addItemN at h
      cases hex : exposeItem cfg n iname v true with
      | error e => rw [hex] at h; exact Except.noConfusion h
      | ok n1 =>
          rw [hex] at h
          dsimp only [] at h
          have hg1 := exposeItem_good cfg n iname v true n1 hg hex
          have hg2 := stepNode_good n1 leafName hg1
          cases hfind : (stepNode n1 leafName).leafsL.find leafName with
          | none => rw [hfind] at h; exact Except.noConfusion h
          | some child =>
              rw [hfind] at h
              dsimp only [] at h
              cases hrec : addItemN cfg iname v rest child with
              | error e => rw [hrec] at h; exact Except.noConfusion h
              | ok child' =>
                  rw [hrec] at h
                  injection h with h
                  subst h
                  generalize hstep : stepNode n1 leafName = sN at hfind hg2 ⊢
                  obtain ⟨e2, a2, l2⟩ := sN
                  simp only [goodN, ANode.exposedL, ANode.attrsL, ANode.leafsL,
                    Bool.and_eq_true] at hg2 ⊢
                  have hchild : goodN child = true :=
                    goodLM_find l2 leafName child hg2.2 hfind
                  have hchild' := addItemN_good cfg iname v rest child child'
                    hchild hrec
                  constructor
                  · exact lkha_setChild _ _ _ _ hg2.1
                      (lkha_find_has l2 a2 leafName child hg2.1 hfind)
                  · exact goodLM_setChild l2 leafName child' hg2.2 hchild'

theorem nodeAt_cons {V : Type} (s : String) (p : List String) (n : ANode V) :
    nodeAt (s :: p) n =
      match n.leafsL.find s with
      | some c => nodeAt p c
      | none => none := rfl

theorem leafsL_mk {V : Type} (e : List (String × V)) (a : List (String × AttrV V))
    (l : LeafMap V) : (ANode.mk e a l).leafsL = l := rfl

theorem addItemN_binds {V : Type} (iname : String) (v : V) :
    ∀ (hier : List String) (n n' : ANode V),
      addItemN true iname v hier n = .ok n' →
      ∀ k, k ≤ hier.length →
        ∃ m, nodeAt (hier.take k) n' = some m ∧
          dictGet m.attrsL iname = some (.item v)
  | [], n, n', h, k, hk => by
      obtain ⟨hshape, _⟩ := exposeItem_ok_shape true n iname v false n' h
      have hk0 : k = 0 := Nat.le_zero.mp hk
      subst hk0
      subst hshape
      refine ⟨_, rfl, ?_⟩
      simp only [ANode.attrsL, if_pos rfl]
      exact dictGet_set_self _ _ _
  | leafName :: rest, n, n', h, k, hk => by
      unfold addItemN at h
      cases hex : exposeItem true n iname v true with
      | error e => rw [hex] at h; exact Except.noConfusion h
      | ok n1 =>
          rw [hex] at h
          dsimp only [] at h
          cases hfind : (stepNode n1 leafName).leafsL.find leafName with
          | none => rw [hfind] at h; exact Except.noConfusion h
          | some child =>
              rw [hfind] at h
              dsimp only [] at h
              cases hrec : addItemN true iname v rest child with
              | error e => rw [hrec] at h; exact Except.noConfusion h
              | ok child' =>
                  rw [hrec] at h
                  injection h with h
                  subst h
                  have hattr1 : dictGet n1.attrsL iname = some (.item v) := by
                    obtain ⟨hshape, _⟩ := exposeItem_ok_shape true n iname v true n1 hex
                    subst hshape
                    simp only [ANode.attrsL, if_pos rfl]
                    exact dictGet_set_self _ _ _
                  have hattr2 := stepNode_attr_get n1 leafName iname (.item v) hattr1
                  cases k with
                  | zero => exact ⟨_, rfl, hattr2⟩
                  | succ j =>
                      have hj : j ≤ rest.length := Nat.succ_le_succ_iff.mp hk
                      obtain ⟨m, hm, hattr⟩ := addItemN_binds iname v rest child child' hrec j hj
                      refine ⟨m, ?_, hattr⟩
                      have hfc : ((stepNode n1 leafName).leafsL.setChild leafName
                          child').find leafName = some child' :=
                        LeafMap.find_setChild_self _ _ _
                      rw [List.take_succ_cons, nodeAt_cons, leafsL_mk, hfc]
                      exact hm

theorem addItemN_preserves {V : Type} (cfg : Bool) (iname : String) (v : V) :
    ∀ (hier : List String) (n n' : ANode V),
      goodN n = true → addItemN cfg iname v hier n = .ok n' →
      ∀ (p : List String) (m : ANode V), nodeAt p n = some m →
        ∃ m', nodeAt p n' = some m' ∧
          ∀ a, (dictGet m.attrsL a).isSome = true →
            (dictGet m'.attrsL a).isSome = true
  | [], n, n', hg, h, p, m, hp => by
      obtain ⟨hshape, _⟩ := exposeItem_ok_shape cfg n iname v false n' h
      subst hshape
      cases p with
      | nil =>
          injection hp with hp
          subst hp
          refine ⟨_, rfl, ?_⟩
          intro a ha
          cases cfg with
          | true =>
              simp only [ANode.attrsL, if_pos rfl]
              exact dictGet_set_isSome _ _ _ _ ha
          | false => simpa [ANode.attrsL] using ha
      | cons s p' =>
          refine ⟨m, ?_, fun a ha => ha⟩
          simpa only [nodeAt, ANode.leafsL] using hp
  | leafName :: rest, n, n', hg, h, p, m, hp => by
      unfold addItemN at h
      cases hex : exposeItem cfg n iname v true with
      | error e => rw [hex] at h; exact Except.noConfusion h
      | ok n1 =>
          rw [hex] at h
          dsimp only [] at h
          have hg1 := exposeItem_good cfg n iname v true n1 hg hex
          have hleafs1 : n1.leafsL = n.leafsL := exposeItem_leafs cfg n iname v true n1 hex
          cases hfind : (stepNode n1 leafName).leafsL.find leafName with
          | none => rw [hfind] at h; exact Except.noConfusion h
          | some child =>
              rw [hfind] at h
              dsimp only [] at h
              cases hrec : addItemN cfg iname v rest child with
              | error e => rw [hrec] at h; exact Except.noConfusion h
              | ok child' =>
                  rw [hrec] at h
                  injection h with h
                  subst h
                  cases p with
                  | nil =>
                      injection hp with hp
                      subst hp
                      refine ⟨_, rfl, ?_⟩
                      intro a ha
                      have ha1 := exposeItem_attrs_some cfg _ iname v true n1 a hex ha
                      have ha2 := stepNode_attrs_some n1 leafName a ha1
                      simpa [ANode.attrsL] using ha2
                  | cons s p' =>
                      by_cases hs : s = leafName
                      · subst hs
                        by_cases hatt : hasAttrN n1 s = true
                        · have hstep : stepNode n1 s = n1 := by
                            unfold stepNode
                            rw [if_pos hatt]
                          rw [hstep, hleafs1] at hfind
                          have hp' : nodeAt p' child = some m := by
                            simp only [nodeAt, hfind] at hp
                            exact hp
                          have hchild_good : goodN child = true := by
                            obtain ⟨e0, a0, l0⟩ := n
                            simp only [goodN, Bool.and_eq_true] at hg
                            exact goodLM_find l0 s child hg.2 hfind
                          obtain ⟨m', hm', hmono⟩ := addItemN_preserves cfg iname v rest
                            child child' hchild_good hrec p' m hp'
                          refine ⟨m', ?_, hmono⟩
                          have hfc : ((stepNode n1 s).leafsL.setChild s child').find s =
                              some child' := LeafMap.find_setChild_self _ _ _
                          rw [nodeAt_cons, leafsL_mk, hfc]
                          exact hm'
                        · have hatt' : hasAttrN n1 s = false := by simpa using hatt
                          have hnone : n1.leafsL.find s = none :=
                            find_none_of_no_attr n1 s hg1 hatt'
                          rw [hleafs1] at hnone
                          simp only [nodeAt, hnone] at hp
                          exact Option.noConfusion hp
                      · have h1 : ((stepNode n1 leafName).leafsL.setChild leafName
                            child').find s = (stepNode n1 leafName).leafsL.find s :=
                          LeafMap.find_setChild_ne _ _ _ _ hs
                        have h2 : (stepNode n1 leafName).leafsL.find s =
                            n1.leafsL.find s := stepNode_find_ne n1 leafName s hs
                        cases hc : n.leafsL.find s with
                        | none =>
                            simp only [nodeAt, hc] at hp
                            exact Option.noConfusion hp
                        | some c =>
                            have hp' : nodeAt p' c = some m := by
                              simp only [nodeAt, hc] at hp
                              exact hp
                            refine ⟨m, ?_, fun a ha => ha⟩
                            rw [nodeAt_cons, leafsL_mk, h1, h2, hleafs1, hc]
                            exact hp'

theorem insertAllN_good {V : Type} (cfg : Bool) :
    ∀ (l : List (InsN V)) (n n' : ANode V),
      goodN n = true → insertAllN cfg n l = .ok n' → goodN n' = true
  | [], n, n', hg, h => by
      injection h with h
      exact h ▸ hg
  | i :: rest, n, n', hg, h => by
      unfold insertAllN at h
      cases ha : addItemN cfg i.iname i.ival i.hier n with
      | error e => rw [ha] at h; exact Except.noConfusion h
      | ok n1 =>
          rw [ha] at h
          dsimp only [] at h
          exact insertAllN_good cfg rest n1 n'
            (addItemN_good cfg i.iname i.ival i.hier n n1 hg ha) h

theorem insertAllN_preserves {V : Type} (cfg : Bool) :
    ∀ (l : List (InsN V)) (n n' : ANode V),
      goodN n = true → insertAllN cfg n l = .ok n' →
      ∀ (p : List String) (m : ANode V), nodeAt p n = some m →
        ∃ m', nodeAt p n' = some m' ∧
          ∀ a, (dictGet m.attrsL a).isSome = true →
            (dictGet m'.attrsL a).isSome = true
  | [], n, n', _, h, p, m, hp => by
      injection h with h
      subst h
      exact ⟨m, hp, fun a ha => ha⟩
  | i :: rest, n, n', hg, h, p, m, hp => by
      unfold insertAllN at h
      cases ha : addItemN cfg i.iname i.ival i.hier n with
      | error e => rw [ha] at h; exact Except.noConfusion h
      | ok n1 =>
          rw [ha] at h
          dsimp only [] at h
          obtain ⟨m1, hm1, hmono1⟩ := addItemN_preserves cfg i.iname i.ival i.hier
            n n1 hg ha p m hp
          have hg1 := addItemN_good cfg i.iname i.ival i.hier n n1 hg ha
          obtain ⟨m2, hm2, hmono2⟩ := insertAllN_preserves cfg rest n1 n' hg1 h p m1 hm1
          exact ⟨m2, hm2, fun a ha2 => hmono2 a (hmono1 a ha2)⟩

/-- C10: with `expose_leafs_items` enabled, after a successful
`add_item(item, hierarchy)` the item's configured value is bound as an
attribute under its name at the root and at every node along the insertion
path; and after any further successful insertions, attribute lookup of the
item's name still succeeds at every node along that path.  (The tree must
satisfy the reachable-state invariant `goodN`, which holds for the empty
root and is preserved by every insertion.) -/
theorem c10_item_bound_along_path {V : Type} (t t' t'' : ANode V) (iname : String)
    (v : V) (hier : List String) (later : List (InsN V))
    (hg : goodN t = true)
    (h1 : addItemN true iname v hier t = .ok t')
    (h2 : insertAllN true t' later = .ok t'') :
    ∀ k, k ≤ hier.length →
      (∃ m, nodeAt (hier.take k) t' = some m ∧
        dictGet m.attrsL iname = some (.item v)) ∧
      (∃ m2, nodeAt (hier.take k) t'' = some m2 ∧
        (dictGet m2.attrsL iname).isSome = true) := by
  intro k hk
  obtain ⟨m, hm, hattr⟩ := addItemN_binds iname v hier t t' h1 k hk
  have hg' := addItemN_good true iname v hier t t' hg h1
  obtain ⟨m2, hm2, hmono⟩ := insertAllN_preserves true later t' t'' hg' h2
    (hier.take k) m hm
  exact ⟨⟨m, hm, hattr⟩, ⟨m2, hm2, hmono iname (by rw [hattr]; rfl)⟩⟩

/-- `Ollie` inserted at `bully.frenchy` into an empty tree. -/
def c10t1 : ANode String :=
  match addItemN true "Ollie" "OV" ["bully", "frenchy"] (emptyNode String) with
  | .ok t => t
  | .error _ => emptyNode String

/-- ... followed by `Lucky` at `bully`. -/
def c10t2 : ANode String :=
  match insertAllN true c10t1 [⟨"Lucky", "LV", ["bully"]⟩] with
  | .ok t => t
  | .error _ => emptyNode String

theorem c10_item_bound_along_path_witness :
    (∃ m, nodeAt ["bully"] c10t1 = some m ∧
      dictGet m.attrsL "Ollie" = some (.item "OV")) ∧
    (∃ m2, nodeAt ["bully"] c10t2 = some m2 ∧
      (dictGet m2.attrsL "Ollie").isSome = true) := by
  have h := c10_item_bound_along_path (emptyNode String) c10t1 c10t2 "Ollie" "OV"
    ["bully", "frenchy"] [⟨"Lucky", "LV", ["bully"]⟩] rfl rfl rfl 1 (by decide)
  exact h

/-- C6 (amended): inserting an item whose name equals an existing child
group's name at a node always fails with the assertion error, before any
mutation, whatever the config and hierarchy. -/
theorem c6_leaf_group_collision {V : Type} (cfg : Bool) (t : ANode V)
    (iname : String) (v : V) (hier : List String)
    (hcol : (t.leafsL.find iname).isSome = true) :
    addItemN cfg iname v hier t =
      .error ("Cannot add item with name '" ++ iname ++
        "' because it has the same name as a group.") := by
  have he : ∀ b, exposeItem cfg t iname v b =
      .error ("Cannot add item with name '" ++ iname ++
        "' because it has the same name as a group.") := by
    intro b
    unfold exposeItem
    rw [if_pos hcol]
  cases hier with
  | nil => exact he false
  | cons a rest =>
      show (match exposeItem cfg t iname v true with
        | .error e => Except.error e
        | .ok n1 =>
            let n2 := stepNode n1 a
            match n2.leafsL.find a with
            | none => Except.error ("KeyError: " ++ a)
            | some child =>
                match addItemN cfg iname v rest child with
                | .error e => Except.error e
                | .ok child' =>
                    Except.ok (ANode.mk n2.exposedL n2.attrsL
                      (n2.leafsL.setChild a child'))) = _
      rw [he true]

def c6groupTree : ANode String :=
  ANode.mk [] [("g", AttrV.group)] (LeafMap.lcons "g" (emptyNode String) .lnil)

theorem c6_leaf_group_collision_witness :
    addItemN true "g" "V" [] c6groupTree =
      .error "Cannot add item with name 'g' because it has the same name as a group." :=
  c6_leaf_group_collision true c6groupTree "g" "V" [] rfl

def c6badTree : ANode String :=
  ANode.mk [("x", "X")] [("x", AttrV.group)]
    (LeafMap.lcons "x" (ANode.mk [("y", "Y")] [] .lnil) .lnil)

/-- C6 counterexample: with `expose_leafs_items=False` (the configuration
of `Plugin._processes` and of `create_dog_tree_no_leaf` in the tests),
inserting `x` as a direct leaf and then inserting under the hierarchy
`["x"]` silently creates a child group named `x` next to the exposed leaf
`x` at the same node — a reachable state where a leaf and a group share a
name. -/
theorem c6_leaf_group_coexist_counterexample :
    insertAllN false (emptyNode String)
      [⟨"x", "X", []⟩, ⟨"y", "Y", ["x"]⟩] = .ok c6badTree ∧
    dictHas c6badTree.exposedL "x" = true ∧
    (c6badTree.leafsL.find "x").isSome = true := by
  exact ⟨rfl, rfl, rfl⟩
